import Mathlib

/-!
Verification development for the zdd deployment tool (package `zdd`).

This file shallowly embeds the deployment model, planner, and executor of
the Go sources (`deployment.go`, `plan.go`) and proves properties about
them.  Filesystem reads are modelled by an explicit `FS` value (directory
listings plus a content map); process and database outcomes are modelled
by oracles indexed by task position.  Machine strings are ASCII in this
code base, so Go's byte-wise operations coincide with `Char`-wise ones.
-/

namespace Zdd

/-! ## Filesystem model -/

/-- Result of `os.ReadDir` for one entry: name, directory bit, and whether
`mode & 0111 != 0` (any execute bit). -/
structure DirEntry where
  name : String
  isDir : Bool
  isExec : Bool
deriving DecidableEq, Repr

/-- A snapshot of the parts of the filesystem the tool reads: the listing
of the deployments root (as `os.ReadDir` returns it, i.e. sorted by name),
the listing of each deployment subdirectory keyed by its directory name,
and file contents keyed by full path. -/
structure FS where
  rootEntries : List DirEntry
  subEntries : String → List DirEntry
  content : String → String

/-! ## Data model (`deployment.go`) -/

/-- One phase of a deployment: an optional script path and an optional SQL
file path (struct `DeploymentPhase`). -/
structure DeploymentPhase where
  ScriptFilePath : Option String
  SQLFilePath : Option String
deriving DecidableEq, Repr

/-- A deployment (struct `Deployment`).  Go's `Phases` map is modelled as
an association list from phase name to `DeploymentPhase`; insertion keeps
the first occurrence's position, as a canonical stand-in for Go's
unordered map iteration.  `AppliedAt` timestamps are opaque naturals. -/
structure Deployment where
  ID : String
  Name : String
  AppliedAt : Option Nat
  Phases : List (String × DeploymentPhase)
  Directory : String
deriving DecidableEq, Repr

/-- A row of the applied-deployments ledger (struct `DeploymentDBRecord`). -/
structure DeploymentDBRecord where
  ID : String
  Name : String
  AppliedAt : Nat
  Checksum : String
deriving DecidableEq, Repr

/-- Result of `CompareDeployments` (struct `DeploymentStatus`). -/
structure DeploymentStatus where
  Local : List Deployment
  Applied : List Deployment
  Pending : List Deployment
  Missing : List Deployment
deriving DecidableEq, Repr

/-! ## Association-list helpers (Go map semantics: overwrite on the key,
lookup finds the unique binding) -/

/-- Set a key in an association list, overwriting in place if present,
appending otherwise — the observable behaviour of a Go map write. -/
def assocSet {β : Type} : List (String × β) → String → β → List (String × β)
  | [], k, v => [(k, v)]
  | (k', v') :: rest, k, v =>
      if k' == k then (k, v) :: rest else (k', v') :: assocSet rest k v

/-- Look a key up in an association list (Go map read). -/
def assocGet {β : Type} (l : List (String × β)) (k : String) : Option β :=
  (l.find? (fun p => p.1 == k)).map Prod.snd

/-! ## Filename patterns (the two regexes of `deployment.go`) -/

/-- Matching against `deploymentDirPattern`, the anchored regex
`(\d6)_(.+)` of `deployment.go`: six ASCII digits, an underscore, then a
non-empty remainder.  Returns `(id, name)` on success. -/
def deploymentDirPattern (s : String) : Option (String × String) :=
  match s.data with
  | c1 :: c2 :: c3 :: c4 :: c5 :: c6 :: '_' :: rest =>
      if c1.isDigit && c2.isDigit && c3.isDigit && c4.isDigit &&
         c5.isDigit && c6.isDigit && !rest.isEmpty then
        some (⟨[c1, c2, c3, c4, c5, c6]⟩, ⟨rest⟩)
      else none
  | _ => none

/-- Matching against `deploymentFilePattern`, the anchored regex
`(expand|migrate|contract|post).(sh|sql)` of `deployment.go`.  The
alternation is a closed set of eight file names, enumerated here; any
other name — including numbered files such as `expand.1.sql` — does not
match.  Returns `(phase, fileType)`. -/
def deploymentFilePattern (s : String) : Option (String × String) :=
  if s == "expand.sh" then some ("expand", "sh")
  else if s == "expand.sql" then some ("expand", "sql")
  else if s == "migrate.sh" then some ("migrate", "sh")
  else if s == "migrate.sql" then some ("migrate", "sql")
  else if s == "contract.sh" then some ("contract", "sh")
  else if s == "contract.sql" then some ("contract", "sql")
  else if s == "post.sh" then some ("post", "sh")
  else if s == "post.sql" then some ("post", "sql")
  else none

/-- Byte-wise (ASCII) lexicographic comparison, the order in which
`os.ReadDir` reports directory entries. -/
def bytesLE : List Char → List Char → Bool
  | [], _ => true
  | _ :: _, [] => false
  | a :: as, b :: bs => if a < b then true else if b < a then false else bytesLE as bs

/-! ## Loading deployments (`LoadDeployments` and helpers) -/

/-- One iteration of the entry loop in `loadFiles`: directories are
skipped, non-matching names are skipped, a `sql` match stores the SQL
path, a `sh` match stores the script path only when the file is
executable. -/
def loadFilesStep (deploymentPath : String)
    (ps : List (String × DeploymentPhase)) (e : DirEntry) :
    List (String × DeploymentPhase) :=
  if e.isDir then ps
  else
    match deploymentFilePattern e.name with
    | none => ps
    | some (phase, fileType) =>
        let filePath := deploymentPath ++ "/" ++ e.name
        let dp := (assocGet ps phase).getD ⟨none, none⟩
        if fileType == "sql" then
          assocSet ps phase ⟨dp.ScriptFilePath, some filePath⟩
        else if e.isExec then
          assocSet ps phase ⟨some filePath, dp.SQLFilePath⟩
        else ps

/-- The `loadFiles` function: fold the step over the deployment
directory's listing, starting from the empty phase map. -/
def loadFiles (fs : FS) (deploymentPath dirName : String) :
    List (String × DeploymentPhase) :=
  (fs.subEntries dirName).foldl (loadFilesStep deploymentPath) []

/-- The `loadDeployment` function: re-parse the directory name (failure is
an error, modelled as `none`), then load its files. -/
def loadDeployment (fs : FS) (deploymentsPath id dirName : String) :
    Option Deployment :=
  let deploymentPath := deploymentsPath ++ "/" ++ dirName
  match deploymentDirPattern dirName with
  | none => none
  | some (_, nm) =>
      some { ID := id, Name := nm, AppliedAt := none,
             Phases := loadFiles fs deploymentPath dirName,
             Directory := deploymentPath }

/-- One iteration of the root-scan loop in `LoadDeployments`: keep only
directories whose name matches the pattern, writing `id -> dirName` into
the map (so a later duplicate ID silently overwrites an earlier one). -/
def deploymentDirsStep (m : List (String × String)) (e : DirEntry) :
    List (String × String) :=
  if !e.isDir then m
  else
    match deploymentDirPattern e.name with
    | none => m
    | some (id, _) => assocSet m id e.name

/-- The final `sort.Slice` of `LoadDeployments`: sort by `ID`.  IDs are
unique at this point, so any correct sort gives the same list; the
embedding uses insertion sort under byte-wise ID comparison (Go string
order). -/
def sortByID (ds : List Deployment) : List Deployment :=
  ds.insertionSort (fun a b => bytesLE a.ID.data b.ID.data = true)

/-- Option-valued mapping that aborts on the first failure, mirroring
the load loop of `LoadDeployments` (each failure returns the error). -/
def mapMOpt {α β : Type} (f : α → Option β) : List α → Option (List β)
  | [] => some []
  | a :: rest =>
      match f a with
      | none => none
      | some b =>
          match mapMOpt f rest with
          | none => none
          | some bs => some (b :: bs)

/-- The `LoadDeployments` function: build the `id -> dirName` map from the
root listing, load each deployment (an error aborts, modelled by `Option`
propagation), and sort the result by ID. -/
def LoadDeployments (fs : FS) (deploymentsPath : String) :
    Option (List Deployment) :=
  let dirs := fs.rootEntries.foldl deploymentDirsStep []
  (mapMOpt (fun p => loadDeployment fs deploymentsPath p.1 p.2) dirs).map sortByID

/-! ## Tasks (`Deployment.Tasks`) -/

/-- A schedulable unit (struct `Task`).  Go stores a pointer to the owning
deployment; the embedding stores the value. -/
structure Task where
  TaskType : String
  Path : String
  Phase : String
  Deployment : Deployment
deriving DecidableEq, Repr

/-- Tasks contributed by one phase of a deployment, in source order:
script first (if present), then SQL (if present and the phase is not
`post`). -/
def phaseTasks (d : Deployment) (phaseName : String) : List Task :=
  match assocGet d.Phases phaseName with
  | none => []
  | some pd =>
      (match pd.ScriptFilePath with
       | some p => [{ TaskType := "script", Path := p, Phase := phaseName, Deployment := d }]
       | none => []) ++
      (match pd.SQLFilePath with
       | some p =>
           if phaseName != "post" then
             [{ TaskType := "sql", Path := p, Phase := phaseName, Deployment := d }]
           else []
       | none => [])

/-- The `Deployment.Tasks` method: phases in the fixed order
expand, migrate, contract, post. -/
def Deployment.Tasks (d : Deployment) : List Task :=
  ["expand", "migrate", "contract", "post"].flatMap (phaseTasks d)

/-! ## Plans (`plan.go`) -/

/-- A plan (struct `Plan`).  `AlreadyDeployed` is Go's `map[string]bool`
with every stored value `true`, modelled as the list of its keys. -/
structure Plan where
  Tasks : List Task
  AlreadyDeployed : List String
deriving DecidableEq, Repr

/-- The `BuildPlan` function: load local deployments, take the applied ID
set from the ledger, and concatenate the task lists of the deployments
that are not yet applied, in the loaded (ID-sorted) order. -/
def BuildPlan (fs : FS) (deploymentsPath : String)
    (applied : List DeploymentDBRecord) : Option Plan :=
  (LoadDeployments fs deploymentsPath).map (fun localDeployments =>
    let alreadyDeployed := applied.map (fun r => r.ID)
    let tasks := localDeployments.flatMap (fun d =>
      if alreadyDeployed.contains d.ID then [] else d.Tasks)
    { Tasks := tasks, AlreadyDeployed := alreadyDeployed })

/-! ## SHA-256 (the `crypto/sha256` accumulation used by
`CalculateChecksum`), implemented over byte lists with `Nat % 2^32`
arithmetic -/

/-- Truncation to a 32-bit word. -/
def w32 (n : Nat) : Nat := n % 4294967296

/-- Right rotation of a 32-bit word. -/
def rotr32 (n x : Nat) : Nat :=
  w32 (Nat.lor (Nat.shiftRight x n) (Nat.shiftLeft x (32 - n)))

/-- The 64 SHA-256 round constants. -/
def sha256K : List Nat :=
  [1116352408, 1899447441, 3049323471, 3921009573, 961987163,
   1508970993, 2453635748, 2870763221, 3624381080, 310598401,
   607225278, 1426881987, 1925078388, 2162078206, 2614888103,
   3248222580, 3835390401, 4022224774, 264347078, 604807628,
   770255983, 1249150122, 1555081692, 1996064986, 2554220882,
   2821834349, 2952996808, 3210313671, 3336571891, 3584528711,
   113926993, 338241895, 666307205, 773529912, 1294757372,
   1396182291, 1695183700, 1986661051, 2177026350, 2456956037,
   2730485921, 2820302411, 3259730800, 3345764771, 3516065817,
   3600352804, 4094571909, 275423344, 430227734, 506948616,
   659060556, 883997877, 958139571, 1322822218, 1537002063,
   1747873779, 1955562222, 2024104815, 2227730452, 2361852424,
   2428436474, 2756734187, 3204031479, 3329325298]

/-- The SHA-256 initial hash state. -/
def sha256InitState : List Nat :=
  [1779033703, 3144134277, 1013904242, 2773480762,
   1359893119, 2600822924, 528734635, 1541459225]

/-- Big-endian byte expansion of a number into `k` bytes. -/
def beBytes : Nat → Nat → List Nat
  | 0, _ => []
  | k + 1, n => beBytes k (n / 256) ++ [n % 256]

/-- SHA-256 padding: append `0x80`, zeros to 56 mod 64, then the 64-bit
big-endian bit length. -/
def sha256Pad (msg : List Nat) : List Nat :=
  let l := msg.length
  let padZeros := (64 + 56 - ((l + 1) % 64)) % 64
  msg ++ [128] ++ List.replicate padZeros 0 ++ beBytes 8 (l * 8)

/-- Group bytes into big-endian 32-bit words. -/
def bytesToWords : List Nat → List Nat
  | a :: b :: c :: d :: rest =>
      (((a * 256 + b) * 256 + c) * 256 + d) :: bytesToWords rest
  | _ => []

/-- Sigma functions of the SHA-256 message schedule. -/
def ssig0 (x : Nat) : Nat :=
  Nat.xor (Nat.xor (rotr32 7 x) (rotr32 18 x)) (Nat.shiftRight x 3)

/-- Second small sigma function. -/
def ssig1 (x : Nat) : Nat :=
  Nat.xor (Nat.xor (rotr32 17 x) (rotr32 19 x)) (Nat.shiftRight x 10)

/-- First big sigma function. -/
def bsig0 (x : Nat) : Nat :=
  Nat.xor (Nat.xor (rotr32 2 x) (rotr32 13 x)) (rotr32 22 x)

/-- Second big sigma function. -/
def bsig1 (x : Nat) : Nat :=
  Nat.xor (Nat.xor (rotr32 6 x) (rotr32 11 x)) (rotr32 25 x)

/-- Extend the 16-word schedule to 64 words (`n` extension steps left). -/
def scheduleAux : Nat → List Nat → List Nat
  | 0, ws => ws
  | n + 1, ws =>
      let i := ws.length
      let w := w32 (ssig1 (ws.getD (i - 2) 0) + ws.getD (i - 7) 0 +
                    ssig0 (ws.getD (i - 15) 0) + ws.getD (i - 16) 0)
      scheduleAux n (ws ++ [w])

/-- One SHA-256 compression round on the eight-word working state. -/
def sha256Round (st : List Nat) (kw : Nat × Nat) : List Nat :=
  match st with
  | [a, b, c, d, e, f, g, h] =>
      let ch := Nat.xor (Nat.land e f) (Nat.land (Nat.xor e 4294967295) g)
      let maj := Nat.xor (Nat.xor (Nat.land a b) (Nat.land a c)) (Nat.land b c)
      let t1 := w32 (h + bsig1 e + ch + kw.1 + kw.2)
      let t2 := w32 (bsig0 a + maj)
      [w32 (t1 + t2), a, b, c, w32 (d + t1), e, f, g]
  | other => other

/-- Process one 64-byte block. -/
def sha256Block (h : List Nat) (block : List Nat) : List Nat :=
  let ws := scheduleAux 48 (bytesToWords block)
  let st := (sha256K.zip ws).foldl sha256Round h
  (h.zip st).map (fun p => w32 (p.1 + p.2))

/-- Split a byte list into 64-byte chunks (fuel-driven; fuel bounds the
number of chunks). -/
def chunks64 : Nat → List Nat → List (List Nat)
  | 0, _ => []
  | _, [] => []
  | fuel + 1, l => l.take 64 :: chunks64 fuel (l.drop 64)

/-- The SHA-256 digest (32 bytes) of a byte list. -/
def sha256 (msg : List Nat) : List Nat :=
  let padded := sha256Pad msg
  let hh := (chunks64 padded.length padded).foldl sha256Block sha256InitState
  hh.flatMap (beBytes 4)

/-- Lower-case hex digit for a value below 16. -/
def hexDigit (n : Nat) : Char :=
  if n < 10 then Char.ofNat (48 + n) else Char.ofNat (87 + n)

/-- Lower-case hex string of a byte list (Go's `%x`). -/
def hexString (bs : List Nat) : String :=
  ⟨bs.flatMap (fun b => [hexDigit (b / 16), hexDigit (b % 16)])⟩

/-- Byte view of an ASCII string (every string this tool handles is
ASCII, where UTF-8 bytes and code points agree). -/
def strBytes (s : String) : List Nat := s.data.map Char.toNat

/-! ## Checksum (`CalculateChecksum`) -/

/-- The byte stream `CalculateChecksum` feeds to the hasher: for every
phase whose `SQLFilePath` is set, the bytes of `phase ++ ":" ++ path`.
Go ranges over the `Phases` map in unspecified order; the embedding uses
the association list's insertion order as one admissible order. -/
def checksumPayload (d : Deployment) : List Nat :=
  d.Phases.foldl (fun acc p =>
    match p.2.SQLFilePath with
    | some sqlPath => acc ++ strBytes (p.1 ++ ":" ++ sqlPath)
    | none => acc) []

/-- The `CalculateChecksum` function: hex SHA-256 of the phase/path
stream.  File contents are not an input. -/
def CalculateChecksum (d : Deployment) : String :=
  hexString (sha256 (checksumPayload d))

/-- The payload piece one `Phases` map entry contributes: the bytes of
`phase ++ ":" ++ path` when the phase carries an SQL path, nothing
otherwise. -/
def checksumPiece (p : String × DeploymentPhase) : Option (List Nat) :=
  (p.2.SQLFilePath).map (fun sqlPath => strBytes (p.1 ++ ":" ++ sqlPath))

/-- The byte stream hashed when Go's `range` over the `Phases` map
yields the entries in the order `ord`: the Go runtime may use a
different order on every call, so the order is an explicit parameter. -/
def checksumPayloadOrd (ord : List (String × DeploymentPhase)) : List Nat :=
  ord.foldl (fun acc p =>
    match p.2.SQLFilePath with
    | some sqlPath => acc ++ strBytes (p.1 ++ ":" ++ sqlPath)
    | none => acc) []

/-- `CalculateChecksum` when Go's map `range` yields the `Phases`
entries in the order `ord`. -/
def CalculateChecksumOrd (ord : List (String × DeploymentPhase)) : String :=
  hexString (sha256 (checksumPayloadOrd ord))

/-! ## Comparator (`CompareDeployments`) -/

/-- One iteration of the local-classification loop of
`CompareDeployments`: a ledger match appends to Applied with `AppliedAt`
copied from the record, otherwise the deployment is Pending. -/
def classifyStep (appliedMap : List (String × DeploymentDBRecord))
    (s : DeploymentStatus) (d : Deployment) : DeploymentStatus :=
  match assocGet appliedMap d.ID with
  | some r =>
      { s with Applied := s.Applied ++ [{ d with AppliedAt := some r.AppliedAt }] }
  | none => { s with Pending := s.Pending ++ [d] }

/-- One iteration of the missing-detection loop of
`CompareDeployments`: a ledger record with no local deployment appends a
synthetic deployment carrying the record's ID, name and timestamp. -/
def missingStep (localIDs : List String) (s : DeploymentStatus)
    (r : DeploymentDBRecord) : DeploymentStatus :=
  if localIDs.contains r.ID then s
  else
    { s with Missing := s.Missing ++
        [{ ID := r.ID, Name := r.Name, AppliedAt := some r.AppliedAt,
           Phases := [], Directory := "" }] }

/-- The `CompareDeployments` function, with its two loops written as
folds over the step functions above.  The Go-map lookups resolve
duplicate record IDs to the last record, matching map-overwrite
insertion. -/
def CompareDeployments (localDeployments : List Deployment)
    (applied : List DeploymentDBRecord) : DeploymentStatus :=
  let appliedMap := applied.foldl (fun m r => assocSet m r.ID r) []
  let localIDs := localDeployments.map (fun d => d.ID)
  applied.foldl (missingStep localIDs)
    (localDeployments.foldl (classifyStep appliedMap)
      { Local := localDeployments, Applied := [], Pending := [], Missing := [] })

/-! ## The executor (`Plan.Execute` / `Plan.ExecuteScript`) -/

/-- Oracles for the effects of one plan run: the success of the script
spawned for the i-th task (combining non-zero exit, signal, and timeout
into one failure bit), the success of reading the i-th task's SQL file,
the success of the transactional SQL batch of the i-th task, and the
success of `RecordDeployment` per deployment ID. -/
structure ExecEnv where
  scriptOk : Nat → Bool
  readOk : Nat → Bool
  sqlOk : Nat → Bool
  recordOk : String → Bool

/-- Result of a plan run: the tasks the loop reached paired with the
`IsHead` flag computed for each, the `(ID, checksum)` rows written to the
ledger, and the error, if any. -/
structure ExecResult where
  executed : List (Task × Bool)
  recorded : List (String × String)
  err : Option String
deriving DecidableEq, Repr

/-- ASCII whitespace test (stand-in for `unicode.IsSpace` on this
code base's paths). -/
def isSpaceChar (c : Char) : Bool :=
  c == ' ' || c == '\t' || c == '\n' || c == '\r'

/-- The `strings.TrimSpace` function on ASCII strings. -/
def strTrim (s : String) : String :=
  ⟨((s.data.dropWhile isSpaceChar).reverse.dropWhile isSpaceChar).reverse⟩

/-- The `completedDeployments` map write: overwrite the entry with this
ID, else append. -/
def markCompleted : List Deployment → Deployment → List Deployment
  | [], d => [d]
  | c :: rest, d => if c.ID == d.ID then d :: rest else c :: markCompleted rest d

/-- Outcome of one task in the executor's `switch` (`none` = success):
a script with a blank path is a silent no-op (`ExecuteScript`'s early
return), otherwise the script oracle decides; an SQL task first reads the
file then runs the batch; any other task type is an error. -/
def taskOutcome (env : ExecEnv) (i : Nat) (t : Task) : Option String :=
  if t.TaskType == "script" then
    if strTrim t.Path == "" then none
    else if env.scriptOk i then none
    else some "failed to execute script"
  else if t.TaskType == "sql" then
    if !(env.readOk i) then some "failed to read SQL file"
    else if env.sqlOk i then none
    else some "failed to execute SQL file"
  else some "unknown task type"

/-- The task loop of `Plan.Execute`: tasks of already-applied deployments
are skipped; otherwise the `IsHead` flag is computed by ID comparison
with the owner of the last task, the task runs, a failure aborts with the
completed set unchanged, and a success marks the owning deployment
completed. -/
def executeTasks (env : ExecEnv) (alreadyDeployed : List String)
    (lastPendingID : String) :
    Nat → List Task → List (Task × Bool) → List Deployment →
    List (Task × Bool) × List Deployment × Option String
  | _, [], trace, completed => (trace, completed, none)
  | i, t :: rest, trace, completed =>
      if alreadyDeployed.contains t.Deployment.ID then
        executeTasks env alreadyDeployed lastPendingID (i + 1) rest trace completed
      else
        let isHead := t.Deployment.ID == lastPendingID
        let trace' := trace ++ [(t, isHead)]
        match taskOutcome env i t with
        | some e => (trace', completed, some e)
        | none =>
            executeTasks env alreadyDeployed lastPendingID (i + 1) rest trace'
              (markCompleted completed t.Deployment)

/-- The recording loop at the end of `Plan.Execute`: one
`RecordDeployment` call per completed deployment; a record failure
returns immediately, keeping the rows already written. -/
def recordLoop (env : ExecEnv) :
    List Deployment → List (String × String) → List (String × String) × Option String
  | [], recs => (recs, none)
  | d :: rest, recs =>
      if env.recordOk d.ID then
        recordLoop env rest (recs ++ [(d.ID, CalculateChecksum d)])
      else (recs, some "failed to record deployment")

/-- The head-deployment ID `Plan.Execute` computes before its loop: the
ID of the deployment owning the last task (empty for an empty list). -/
def planLastID (p : Plan) : String :=
  match p.Tasks.getLast? with
  | some t => t.Deployment.ID
  | none => ""

/-- Completion of a plan run from the task loop's result: a loop error
returns it with nothing recorded (the recording loop was never reached);
otherwise the recording loop runs over the completed deployments. -/
def finishRun (env : ExecEnv)
    (r : List (Task × Bool) × List Deployment × Option String) : ExecResult :=
  match r.2.2 with
  | some e => { executed := r.1, recorded := [], err := some e }
  | none =>
      { executed := r.1, recorded := (recordLoop env r.2.1 []).1,
        err := (recordLoop env r.2.1 []).2 }

/-- The `Plan.Execute` method: empty plans are a no-op; otherwise the
head is the owner of the last task, the task loop runs, and only when it
finishes without error does the recording loop write the ledger. -/
def Plan.Execute (env : ExecEnv) (p : Plan) : ExecResult :=
  if p.Tasks.isEmpty then { executed := [], recorded := [], err := none }
  else finishRun env (executeTasks env p.AlreadyDeployed (planLastID p) 0 p.Tasks [] [])

/-! ## ID allocation and creation (`getNextDeploymentID`,
`CreateDeployment`) -/

/-- Decimal digit character. -/
def digitChar (n : Nat) : Char := Char.ofNat (48 + n)

/-- The value `strconv.Atoi` gives a digit string (callers only pass
all-digit strings). -/
def digitsToNat (cs : List Char) : Nat :=
  cs.foldl (fun acc c => acc * 10 + (c.toNat - 48)) 0

/-- Decimal digit list of a natural number (fuel-driven). -/
def natDecimalAux : Nat → Nat → List Char
  | 0, _ => []
  | fuel + 1, n =>
      if n < 10 then [digitChar n]
      else natDecimalAux fuel (n / 10) ++ [digitChar (n % 10)]

/-- Decimal digit list of a natural number. -/
def natDecimal (n : Nat) : List Char := natDecimalAux (n + 1) n

/-- Go's `fmt.Sprintf("%06d", n)`: decimal text left-padded with zeros
to at least six characters. -/
def pad6 (n : Nat) : String :=
  let s := natDecimal n
  ⟨List.replicate (6 - s.length) '0' ++ s⟩

/-- The backward scan of `getNextDeploymentID`: the ID of the last
directory entry matching the deployment pattern (entries are scanned from
the end; files and non-matching names are skipped). -/
def findLastDirID : List DirEntry → Option String
  | [] => none
  | e :: rest =>
      match findLastDirID rest with
      | some id => some id
      | none =>
          if e.isDir then
            match deploymentDirPattern e.name with
            | some (id, _) => some id
            | none => none
          else none

/-- The `getNextDeploymentID` function: `000001` when no directory
matches (including a missing root, modelled as an empty listing),
otherwise the last matching ID plus one, zero-padded. -/
def getNextDeploymentID (entries : List DirEntry) : String :=
  match findLastDirID entries with
  | none => "000001"
  | some lastID => pad6 (digitsToNat lastID.data + 1)

/-- Go's name sanitization in `CreateDeployment`: spaces to underscores,
then lower-case (ASCII). -/
def sanitizeName (s : String) : String :=
  ⟨s.data.map (fun c => if c == ' ' then '_' else c.toLower)⟩

/-- The `CreateDeployment` function, as the pure allocation it performs:
the returned deployment (ID from `getNextDeploymentID` on the current
root listing, sanitized name, directory `root/ID_name`, no phases
loaded).  The seven template files it writes live inside the new
subdirectory and never change the root listing beyond the one new
directory entry. -/
def CreateDeployment (entries : List DirEntry) (deploymentsPath rawName : String) :
    Deployment :=
  let nm := sanitizeName rawName
  let id := getNextDeploymentID entries
  { ID := id, Name := nm, AppliedAt := none, Phases := [],
    Directory := deploymentsPath ++ "/" ++ id ++ "_" ++ nm }

/-- The root listing after `CreateDeployment` adds its subdirectory, as
the next `os.ReadDir` reports it: the new directory entry merged into
sorted position. -/
def rootAfterCreate (entries : List DirEntry) (deploymentsPath rawName : String) :
    List DirEntry :=
  let d := CreateDeployment entries deploymentsPath rawName
  let newEntry : DirEntry :=
    { name := d.ID ++ "_" ++ d.Name, isDir := true, isExec := true }
  (entries ++ [newEntry]).insertionSort (fun a b => bytesLE a.name.data b.name.data = true)

/-- The `IsNonEmptySQL` function of `deployment.go`: despite the name, it
only tests that the path is non-empty and the file exists; content is
never read.  Existence is modelled by membership of the file's entry in
its directory listing. -/
def IsNonEmptySQL (exists_ : Bool) (sqlFilePath : String) : Bool :=
  if sqlFilePath == "" then false
  else exists_

/-! ## Derived notions used by the specification claims -/

/-- A placeholder task used as the default of positional lookups. -/
def noTask : Task :=
  { TaskType := "", Path := "", Phase := "",
    Deployment := { ID := "", Name := "", AppliedAt := none, Phases := [], Directory := "" } }

/-- Position of a phase in the fixed execution order. -/
def phaseIdx : String → Nat
  | "expand" => 0
  | "migrate" => 1
  | "contract" => 2
  | "post" => 3
  | _ => 4

/-- The global task order the plan builder must produce: strictly
ascending deployment IDs across deployments (hence no interleaving);
within one deployment ascending phases; within one phase the script
before the SQL task. -/
def taskOrdered (t1 t2 : Task) : Prop :=
  (bytesLE t1.Deployment.ID.data t2.Deployment.ID.data = true ∧
   t1.Deployment.ID ≠ t2.Deployment.ID) ∨
  (t1.Deployment = t2.Deployment ∧
    (phaseIdx t1.Phase < phaseIdx t2.Phase ∨
     (t1.Phase = t2.Phase ∧ t1.TaskType = "script" ∧ t2.TaskType = "sql")))

/-- A directory listing as `os.ReadDir` delivers it: sorted by name. -/
def nameSorted (entries : List DirEntry) : Prop :=
  List.Pairwise (fun a b => bytesLE a.name.data b.name.data = true) entries

/-- The ID a root entry contributes to the deployment scan: directories
matching the name pattern only. -/
def dirIDOf (e : DirEntry) : Option String :=
  if e.isDir then (deploymentDirPattern e.name).map Prod.fst else none

/-- Numeric values of the IDs of all matching deployment directories in
a root listing. -/
def matchingIDVals (entries : List DirEntry) : List Nat :=
  entries.filterMap (fun e => (dirIDOf e).map (fun s => digitsToNat s.data))

/-- Maximum of a list of naturals (zero for the empty list). -/
def maxNat (l : List Nat) : Nat := l.foldl max 0

/-- Split a character list at newlines. -/
def splitLines : List Char → List (List Char)
  | [] => [[]]
  | c :: cs =>
      if c = '\n' then [] :: splitLines cs
      else
        match splitLines cs with
        | [] => [[c]]
        | l :: ls => (c :: l) :: ls

/-- Does a character list start with a `--` comment marker. -/
def startsWithDashDash : List Char → Bool
  | '-' :: '-' :: _ => true
  | _ => false

/-- Trim ASCII whitespace from both ends of a character list. -/
def trimChars (cs : List Char) : List Char :=
  ((cs.dropWhile isSpaceChar).reverse.dropWhile isSpaceChar).reverse

/-- Modelled from the spec: the comment-stripping emptiness test the
specification attributes to SQL references ("content, once comments and
blank lines are stripped, has no remaining tokens").  The current
`deployment.go` contains no such content test; this definition follows
the spec's words (and the older `HasNonEmptySQL` of `migrations.go`):
split into lines, trim each, and look for a line that is neither blank
nor a `--` comment. -/
def specStrippedNonEmpty (content : String) : Bool :=
  (splitLines content.data).any (fun line =>
    let t := trimChars line
    !t.isEmpty && !(startsWithDashDash t))

/-! ## Concrete fixtures -/

/-- Two single-task deployments; used to exercise the executor's failure
behaviour. -/
def fsC1 : FS :=
  { rootEntries := [⟨"000001_a", true, true⟩, ⟨"000002_b", true, true⟩],
    subEntries := fun d =>
      if d == "000001_a" then [⟨"expand.sql", false, false⟩]
      else if d == "000002_b" then [⟨"expand.sql", false, false⟩]
      else [],
    content := fun _ => "CREATE TABLE t (id INT);" }

/-- Oracle where only the first SQL batch succeeds. -/
def envC1 : ExecEnv :=
  { scriptOk := fun _ => true, readOk := fun _ => true,
    sqlOk := fun i => i == 0, recordOk := fun _ => true }

/-- Oracle where everything succeeds. -/
def envAllOk : ExecEnv :=
  { scriptOk := fun _ => true, readOk := fun _ => true,
    sqlOk := fun _ => true, recordOk := fun _ => true }

/-- The plan built over `fsC1` with an empty ledger. -/
def planC1 : Plan :=
  (BuildPlan fsC1 "m" []).getD { Tasks := [], AlreadyDeployed := [] }

/-- One deployment whose `expand.sql` content is a lone comment. -/
def fsC4 : FS :=
  { rootEntries := [⟨"000001_a", true, true⟩],
    subEntries := fun d => if d == "000001_a" then [⟨"expand.sql", false, false⟩] else [],
    content := fun p => if p == "m/000001_a/expand.sql" then "-- just a comment\n\n" else "" }

/-- The plan built over `fsC4` with an empty ledger. -/
def planC4 : Plan :=
  (BuildPlan fsC4 "m" []).getD { Tasks := [], AlreadyDeployed := [] }

/-- A deployment directory holding only numbered batch SQL files. -/
def fsC6 : FS :=
  { rootEntries := [⟨"000001_big", true, true⟩],
    subEntries := fun d =>
      if d == "000001_big" then
        [⟨"contract.1.sql", false, false⟩, ⟨"expand.1.sql", false, false⟩,
         ⟨"expand.2.sql", false, false⟩]
      else [],
    content := fun _ => "ALTER TABLE t ADD COLUMN c INT;" }

/-- One deployment with `expand.sql`; two filesystem states that differ
only in that file's content (one character changed). -/
def fsC3a : FS :=
  { rootEntries := [⟨"000001_a", true, true⟩],
    subEntries := fun d => if d == "000001_a" then [⟨"expand.sql", false, false⟩] else [],
    content := fun p => if p == "m/000001_a/expand.sql" then "SELECT 1;" else "" }

/-- Same structure as `fsC3a` with one character of SQL changed. -/
def fsC3b : FS :=
  { rootEntries := [⟨"000001_a", true, true⟩],
    subEntries := fun d => if d == "000001_a" then [⟨"expand.sql", false, false⟩] else [],
    content := fun p => if p == "m/000001_a/expand.sql" then "SELECT 2;" else "" }

/-- Two deployments whose phase files carry identical contents but whose
directories (hence paths) differ. -/
def fsC3c : FS :=
  { rootEntries := [⟨"000001_a", true, true⟩, ⟨"000002_b", true, true⟩],
    subEntries := fun d =>
      if d == "000001_a" then [⟨"expand.sql", false, false⟩]
      else if d == "000002_b" then [⟨"expand.sql", false, false⟩]
      else [],
    content := fun _ => "SELECT 1;" }

/-- Two SQL-bearing `Phases` entries, for probing the checksum under the
two range orders of a two-SQL-phase map. -/
def pC3exp : String × DeploymentPhase :=
  ("expand", { ScriptFilePath := none, SQLFilePath := some "m/000001_a/expand.sql" })

/-- A second SQL-bearing entry. -/
def pC3mig : String × DeploymentPhase :=
  ("migrate", { ScriptFilePath := none, SQLFilePath := some "m/000001_a/migrate.sql" })

/-- An entry without an SQL path. -/
def pC3post : String × DeploymentPhase :=
  ("post", { ScriptFilePath := some "m/000001_a/post.sh", SQLFilePath := none })

/-- The same entry with a different script path: the script path is not
a checksum input. -/
def pC3post2 : String × DeploymentPhase :=
  ("post", { ScriptFilePath := some "elsewhere/post.sh", SQLFilePath := none })

/-- A concrete deployment over those entries. -/
def dC3 : Deployment :=
  { ID := "000001", Name := "a", AppliedAt := none,
    Phases := [pC3exp, pC3post], Directory := "m/000001_a" }

/-! ## Claim C1 -/

/-- Claim C1, counterexample.  In the run of `planC1` under `envC1`,
deployment 000001 completes all of its tasks (its single task succeeds)
and the later deployment 000002's task then fails — yet the run records
nothing at all: `Plan.Execute` batches every `RecordDeployment` call
after the task loop, so the later failure does prevent the recording of
the earlier fully-successful deployment, contrary to the claim. -/
theorem c1_counterexample :
    BuildPlan fsC1 "m" [] = some planC1 ∧
    (planC1.Tasks.map fun t => t.Deployment.ID) = ["000001", "000002"] ∧
    taskOutcome envC1 0 (planC1.Tasks.getD 0 noTask) = none ∧
    (taskOutcome envC1 1 (planC1.Tasks.getD 1 noTask)).isSome = true ∧
    (Plan.Execute envC1 planC1).executed.length = 2 ∧
    (Plan.Execute envC1 planC1).err.isSome = true ∧
    (Plan.Execute envC1 planC1).recorded = [] := by
  decide

/-! ## Claim C3 -/

/-- Claim C3, counterexample.  Changing one character of `expand.sql`
(`fsC3a` vs `fsC3b`) leaves every checksum of the loaded deployments
unchanged, and conversely two deployments with identical
expand/migrate/contract contents (`fsC3c`) get two different checksums —
`CalculateChecksum` hashes the phase-name/file-path pairs, not content,
so both halves of the claim fail. -/
theorem c3_counterexample :
    fsC3a.content "m/000001_a/expand.sql" ≠ fsC3b.content "m/000001_a/expand.sql" ∧
    (LoadDeployments fsC3a "m").map (fun l => l.map CalculateChecksum) =
      (LoadDeployments fsC3b "m").map (fun l => l.map CalculateChecksum) ∧
    fsC3c.content "m/000001_a/expand.sql" = fsC3c.content "m/000002_b/expand.sql" ∧
    ((LoadDeployments fsC3c "m").getD []).length = 2 ∧
    (((LoadDeployments fsC3c "m").getD []).map CalculateChecksum).Nodup := by
  decide

/-- The order-explicit payload is the concatenation of the pieces of
the SQL-bearing entries, in range order. -/
theorem checksumPayloadOrd_eq (ord : List (String × DeploymentPhase)) :
    checksumPayloadOrd ord = (ord.filterMap checksumPiece).flatten := by
  suffices h : ∀ acc : List Nat, ord.foldl (fun acc p =>
      match p.2.SQLFilePath with
      | some sqlPath => acc ++ strBytes (p.1 ++ ":" ++ sqlPath)
      | none => acc) acc = acc ++ (ord.filterMap checksumPiece).flatten by
    simpa [checksumPayloadOrd] using h []
  induction ord with
  | nil => intro acc; simp
  | cons p rest ih =>
      intro acc
      rw [List.foldl_cons, List.filterMap_cons]
      cases hq : p.2.SQLFilePath with
      | none =>
          simp only [hq, checksumPiece, Option.map_none']
          exact ih acc
      | some sqlPath =>
          simp only [hq, checksumPiece, Option.map_some']
          rw [List.flatten_cons, ih (acc ++ strBytes (p.1 ++ ":" ++ sqlPath))]
          simp [List.append_assoc]

/-- The SQL-bearing pieces of an order depend only on the phase names
and SQL paths it lists. -/
theorem filterMap_checksumPiece_eq (ord : List (String × DeploymentPhase)) :
    ord.filterMap checksumPiece =
      (ord.map (fun p => (p.1, p.2.SQLFilePath))).filterMap
        (fun q => q.2.map (fun sqlPath => strBytes (q.1 ++ ":" ++ sqlPath))) := by
  rw [List.filterMap_map]
  rfl

/-- Two permuted lists of length at most one are equal. -/
theorem perm_len_le_one_eq (l1 l2 : List (List Nat)) (h : l1.Perm l2)
    (hl : l1.length ≤ 1) : l1 = l2 := by
  cases l1 with
  | nil => exact h.nil_eq
  | cons a t =>
      cases t with
      | nil => exact List.singleton_perm.mp h
      | cons b t2 => rw [List.length_cons, List.length_cons] at hl; omega

set_option maxRecDepth 4000 in
/-- Claim C3, amended.  `CalculateChecksum` hashes `phase:path` for
every SQL-bearing phase in whatever order Go's `range` happens to yield
the `Phases` map entries — an order the runtime may vary between calls,
modelled by the explicit parameter of `CalculateChecksumOrd` (the
embedding's `CalculateChecksum` uses the insertion order, one admissible
range order).  The digest is a function of the phase-name/SQL-path pairs
in range order alone — file contents, script paths and every other field
are never inputs; with at most one SQL-bearing phase every range order
yields the same digest; but with two SQL-bearing phases the two range
orders of the very same `Phases` value yield different digests, so the
checksum is not a pure function of the `Phases` map. -/
theorem c3_amended_checksum :
    (∀ d : Deployment, CalculateChecksum d = CalculateChecksumOrd d.Phases) ∧
    (∀ ord1 ord2 : List (String × DeploymentPhase),
      ord1.map (fun p => (p.1, p.2.SQLFilePath)) =
        ord2.map (fun p => (p.1, p.2.SQLFilePath)) →
      CalculateChecksumOrd ord1 = CalculateChecksumOrd ord2) ∧
    (∀ ord1 ord2 : List (String × DeploymentPhase), ord1.Perm ord2 →
      (ord1.filterMap checksumPiece).length ≤ 1 →
      CalculateChecksumOrd ord1 = CalculateChecksumOrd ord2) ∧
    CalculateChecksumOrd [pC3exp, pC3mig] ≠ CalculateChecksumOrd [pC3mig, pC3exp] := by
  refine ⟨fun d => rfl, ?_, ?_, by decide⟩
  · intro ord1 ord2 h
    unfold CalculateChecksumOrd
    rw [checksumPayloadOrd_eq, checksumPayloadOrd_eq,
      filterMap_checksumPiece_eq ord1, filterMap_checksumPiece_eq ord2, h]
  · intro ord1 ord2 hp hlen
    have heq : ord1.filterMap checksumPiece = ord2.filterMap checksumPiece :=
      perm_len_le_one_eq _ _ (hp.filterMap checksumPiece) hlen
    unfold CalculateChecksumOrd
    rw [checksumPayloadOrd_eq, checksumPayloadOrd_eq, heq]

/-- Witness for `c3_amended_checksum`: the insertion-order digest of a
concrete deployment, order-congruence at two orders differing only in a
script path, and order-independence of a one-SQL-phase map across a
concrete transposition. -/
theorem c3_amended_checksum_witness :
    CalculateChecksum dC3 = CalculateChecksumOrd dC3.Phases ∧
    CalculateChecksumOrd [pC3exp, pC3post] = CalculateChecksumOrd [pC3exp, pC3post2] ∧
    CalculateChecksumOrd [pC3exp, pC3post] = CalculateChecksumOrd [pC3post, pC3exp] :=
  ⟨c3_amended_checksum.1 dC3,
   c3_amended_checksum.2.1 _ _ (by decide),
   c3_amended_checksum.2.2.1 _ _ (List.Perm.swap pC3post pC3exp []) (by decide)⟩

/-! ## Claim C4 -/

/-- Claim C4, counterexample.  The `expand.sql` of `fsC4` strips to
nothing (it is a lone `--` comment), yet the built plan contains an SQL
task for the expand phase: the current code never inspects content, so a
comment-only SQL file is not treated as absent. -/
theorem c4_counterexample :
    specStrippedNonEmpty (fsC4.content "m/000001_a/expand.sql") = false ∧
    BuildPlan fsC4 "m" [] = some planC4 ∧
    (planC4.Tasks.map fun t => (t.TaskType, t.Phase)) = [("sql", "expand")] := by
  decide

/-! ## Claim C6 -/

/-- Claim C6, code evaluation at the failing input.  Numbered batch
files such as `expand.1.sql` do not match `deploymentFilePattern`, so a
deployment directory holding only numbered SQL files loads with an empty
phase map and contributes no tasks at all — the files are silently
ignored instead of being attached in suffix order as the claim (and the
project README) state. -/
theorem c6_numbered_files_ignored :
    deploymentFilePattern "expand.1.sql" = none ∧
    deploymentFilePattern "expand.2.sql" = none ∧
    deploymentFilePattern "contract.1.sql" = none ∧
    (LoadDeployments fsC6 "m").map (fun l => l.map (fun d => (d.ID, d.Phases, d.Tasks))) =
      some [("000001", [], [])] := by
  decide

/-! ## Executor lemmas -/

/-- Every pair the task loop appends to the trace carries the `IsHead`
flag computed by ID comparison with `lid`. -/
theorem executeTasks_trace_isHead (env : ExecEnv) (skip : List String) (lid : String) :
    ∀ (ts : List Task) (i : Nat) (trace : List (Task × Bool)) (completed : List Deployment),
      (∀ x ∈ trace, x.2 = (x.1.Deployment.ID == lid)) →
      ∀ x ∈ (executeTasks env skip lid i ts trace completed).1,
        x.2 = (x.1.Deployment.ID == lid) := by
  intro ts
  induction ts with
  | nil =>
      intro i trace completed htr x hx
      simpa [executeTasks] using htr x hx
  | cons t rest ih =>
      intro i trace completed htr x hx
      rw [executeTasks] at hx
      by_cases hc : skip.contains t.Deployment.ID
      · rw [if_pos hc] at hx
        exact ih (i + 1) trace completed htr x hx
      · rw [if_neg hc] at hx
        have htr' : ∀ y ∈ trace ++ [(t, t.Deployment.ID == lid)],
            y.2 = (y.1.Deployment.ID == lid) := by
          intro y hy
          rcases List.mem_append.mp hy with hy | hy
          · exact htr y hy
          · rcases List.mem_singleton.mp hy with rfl
            rfl
        cases hout : taskOutcome env i t with
        | some e =>
            simp only [hout] at hx
            exact htr' x hx
        | none =>
            simp only [hout] at hx
            exact ih (i + 1) _ _ htr' x hx

/-- If the first `k` pending tasks succeed and task `k` fails, the task
loop stops there: the trace grows by exactly the first `k + 1` tasks and
the loop returns an error. -/
theorem executeTasks_firstFail (env : ExecEnv) (skip : List String) (lid : String) :
    ∀ (ts : List Task) (k i : Nat) (trace : List (Task × Bool)) (completed : List Deployment),
      (∀ t ∈ ts, skip.contains t.Deployment.ID = false) →
      (∀ j, j < k → taskOutcome env (i + j) (ts.getD j noTask) = none) →
      k < ts.length →
      (taskOutcome env (i + k) (ts.getD k noTask)).isSome = true →
      ∃ comp e,
        executeTasks env skip lid i ts trace completed =
          (trace ++ (ts.take (k + 1)).map (fun t => (t, t.Deployment.ID == lid)),
           comp, some e) := by
  intro ts
  induction ts with
  | nil =>
      intro k i trace completed _ _ hk _
      exact absurd hk (by simp)
  | cons t rest ih =>
      intro k i trace completed hskip hbefore hk hfail
      have hc : skip.contains t.Deployment.ID = false := hskip t (by simp)
      rw [executeTasks, if_neg (by rw [hc]; simp)]
      cases k with
      | zero =>
          have hs0 : (taskOutcome env (i + 0) t).isSome = true := by simpa using hfail
          cases hout : taskOutcome env i t with
          | none => rw [Nat.add_zero] at hs0; rw [hout] at hs0; simp at hs0
          | some e =>
              refine ⟨completed, e, ?_⟩
              simp [hout]
      | succ k' =>
          have h0 : taskOutcome env i t = none := by
            have := hbefore 0 (Nat.succ_pos k')
            simpa using this
          rw [h0]
          have hskip' : ∀ t' ∈ rest, skip.contains t'.Deployment.ID = false :=
            fun t' ht' => hskip t' (List.mem_cons_of_mem _ ht')
          have hbefore' : ∀ j, j < k' →
              taskOutcome env (i + 1 + j) (rest.getD j noTask) = none := by
            intro j hj
            have := hbefore (j + 1) (Nat.succ_lt_succ hj)
            simpa [Nat.add_assoc, Nat.add_comm 1 j] using this
          have hk' : k' < rest.length := Nat.lt_of_succ_lt_succ (by simpa using hk)
          have hfail' : (taskOutcome env (i + 1 + k') (rest.getD k' noTask)).isSome = true := by
            have h1 : i + (k' + 1) = i + 1 + k' := by omega
            have h2 : (t :: rest).getD (k' + 1) noTask = rest.getD k' noTask := rfl
            rw [h1] at hfail
            rwa [h2] at hfail
          obtain ⟨comp, e, heq⟩ := ih k' (i + 1)
            (trace ++ [(t, t.Deployment.ID == lid)])
            (markCompleted completed t.Deployment) hskip' hbefore' hk' hfail'
          refine ⟨comp, e, ?_⟩
          simp only [h0]
          rw [heq]
          simp [List.append_assoc]

/-- If every pending task succeeds, the task loop finishes without
error, appending all tasks to the trace and folding every owner into the
completed map. -/
theorem executeTasks_allOk (env : ExecEnv) (skip : List String) (lid : String) :
    ∀ (ts : List Task) (i : Nat) (trace : List (Task × Bool)) (completed : List Deployment),
      (∀ t ∈ ts, skip.contains t.Deployment.ID = false) →
      (∀ j, j < ts.length → taskOutcome env (i + j) (ts.getD j noTask) = none) →
      executeTasks env skip lid i ts trace completed =
        (trace ++ ts.map (fun t => (t, t.Deployment.ID == lid)),
         ts.foldl (fun c t => markCompleted c t.Deployment) completed, none) := by
  intro ts
  induction ts with
  | nil =>
      intro i trace completed _ _
      simp [executeTasks]
  | cons t rest ih =>
      intro i trace completed hskip hok
      have hc : skip.contains t.Deployment.ID = false := hskip t (by simp)
      rw [executeTasks, if_neg (by rw [hc]; simp)]
      have h0 : taskOutcome env i t = none := by
        have := hok 0 (by simp)
        simpa using this
      simp only [h0]
      have hok' : ∀ j, j < rest.length →
          taskOutcome env (i + 1 + j) (rest.getD j noTask) = none := by
        intro j hj
        have := hok (j + 1) (by simpa using Nat.succ_lt_succ hj)
        simpa [Nat.add_assoc, Nat.add_comm 1 j] using this
      rw [ih (i + 1) _ _ (fun t' ht' => hskip t' (List.mem_cons_of_mem _ ht')) hok']
      simp [List.append_assoc]

/-- Membership in the completed map after an overwrite. -/
theorem markCompleted_id_mem (c : List Deployment) (d : Deployment) :
    ∀ x ∈ (markCompleted c d).map Deployment.ID,
      x = d.ID ∨ x ∈ c.map Deployment.ID := by
  induction c with
  | nil =>
      intro x hx
      simp only [markCompleted, List.map_cons, List.map_nil, List.mem_singleton] at hx
      exact Or.inl hx
  | cons c0 rest ih =>
      intro x hx
      rw [markCompleted] at hx
      by_cases h : c0.ID == d.ID
      · rw [if_pos h] at hx
        rcases List.mem_map.mp hx with ⟨y, hy, rfl⟩
        rcases List.mem_cons.mp hy with rfl | hy
        · exact Or.inl rfl
        · exact Or.inr (by simp [List.mem_map]; exact Or.inr ⟨y, hy, rfl⟩)
      · rw [if_neg h] at hx
        rcases List.mem_map.mp hx with ⟨y, hy, rfl⟩
        rcases List.mem_cons.mp hy with rfl | hy
        · exact Or.inr (by simp)
        · rcases ih y.ID (List.mem_map_of_mem _ hy) with h1 | h1
          · exact Or.inl h1
          · exact Or.inr (by simp [h1])

/-- Overwriting the completed map preserves distinctness of its IDs. -/
theorem markCompleted_nodup (c : List Deployment) (d : Deployment)
    (h : (c.map Deployment.ID).Nodup) :
    ((markCompleted c d).map Deployment.ID).Nodup := by
  induction c with
  | nil => simp [markCompleted]
  | cons c0 rest ih =>
      rw [markCompleted]
      simp only [List.map_cons, List.nodup_cons] at h
      by_cases hbe : c0.ID == d.ID
      · rw [if_pos hbe]
        have : c0.ID = d.ID := by simpa using hbe
        simp only [List.map_cons, List.nodup_cons]
        exact ⟨this ▸ h.1, h.2⟩
      · rw [if_neg hbe]
        simp only [List.map_cons, List.nodup_cons]
        constructor
        · intro hmem
          rcases markCompleted_id_mem rest d c0.ID hmem with h1 | h1
          · exact absurd h1 (by simpa using hbe)
          · exact h.1 h1
        · exact ih h.2

/-- The task loop preserves distinctness of completed-map IDs. -/
theorem executeTasks_completed_nodup (env : ExecEnv) (skip : List String) (lid : String) :
    ∀ (ts : List Task) (i : Nat) (trace : List (Task × Bool)) (completed : List Deployment),
      (completed.map Deployment.ID).Nodup →
      (((executeTasks env skip lid i ts trace completed).2.1).map Deployment.ID).Nodup := by
  intro ts
  induction ts with
  | nil =>
      intro i trace completed h
      simpa [executeTasks] using h
  | cons t rest ih =>
      intro i trace completed h
      rw [executeTasks]
      by_cases hc : skip.contains t.Deployment.ID
      · rw [if_pos hc]; exact ih (i + 1) trace completed h
      · rw [if_neg hc]
        cases hout : taskOutcome env i t with
        | some e => simpa using h
        | none => exact ih (i + 1) _ _ (markCompleted_nodup completed t.Deployment h)

/-- When every `RecordDeployment` call succeeds, the record loop writes
one `(ID, checksum)` row per completed deployment in order. -/
theorem recordLoop_allOk (env : ExecEnv) (h : ∀ id, env.recordOk id = true) :
    ∀ (ds : List Deployment) (recs : List (String × String)),
      recordLoop env ds recs =
        (recs ++ ds.map (fun d => (d.ID, CalculateChecksum d)), none) := by
  intro ds
  induction ds with
  | nil => intro recs; simp [recordLoop]
  | cons d rest ih =>
      intro recs
      rw [recordLoop, if_pos (h d.ID), ih]
      simp

/-! ## Claim C2 -/

/-- Claim C2: for every plan whose tasks are all pending, if the first
`k` tasks succeed and task `k` fails (script non-zero exit, signal or
timeout, SQL read or execution error — all the failure modes of
`taskOutcome`), then `Plan.Execute` returns an error, exactly the tasks
up to and including the failing one were executed (none after it), and
no ledger record at all is written — in particular none for the failing
deployment or for any deployment whose tasks had not all completed. -/
theorem c2_task_failure_aborts (env : ExecEnv) (p : Plan) (k : Nat)
    (hskip : ∀ t ∈ p.Tasks, p.AlreadyDeployed.contains t.Deployment.ID = false)
    (hk : k < p.Tasks.length)
    (hbefore : ∀ j, j < k → taskOutcome env j (p.Tasks.getD j noTask) = none)
    (hfail : (taskOutcome env k (p.Tasks.getD k noTask)).isSome = true) :
    (Plan.Execute env p).err.isSome = true ∧
    (Plan.Execute env p).executed.map Prod.fst = p.Tasks.take (k + 1) ∧
    (Plan.Execute env p).recorded = [] := by
  have hne : p.Tasks.isEmpty = false := by
    cases hts : p.Tasks with
    | nil => rw [hts] at hk; simp at hk
    | cons a l => simp
  obtain ⟨comp, e, heq⟩ := executeTasks_firstFail env p.AlreadyDeployed (planLastID p)
    p.Tasks k 0 [] [] hskip (by simpa using hbefore) hk (by simpa using hfail)
  rw [Plan.Execute, if_neg (by simp [hne]), heq]
  rw [finishRun]
  refine ⟨rfl, ?_, rfl⟩
  simp only [List.nil_append, List.map_map]
  have hft : (Prod.fst ∘ fun t : Task => (t, t.Deployment.ID == planLastID p)) = id := rfl
  rw [hft, List.map_id]

/-- Witness for `c2_task_failure_aborts`: in the concrete run of
`planC1` under `envC1` the second task fails, `Plan.Execute` errors, the
executed tasks are exactly the first two, and nothing is recorded. -/
theorem c2_task_failure_aborts_witness :
    (Plan.Execute envC1 planC1).err.isSome = true ∧
    (Plan.Execute envC1 planC1).executed.map Prod.fst = planC1.Tasks.take 2 ∧
    (Plan.Execute envC1 planC1).recorded = [] :=
  c2_task_failure_aborts envC1 planC1 1 (by decide) (by decide) (by decide) (by decide)

/-! ## Claim C8 -/

/-- Claim C8: for every non-empty plan, the head ID computed by
`Plan.Execute` is the ID of the deployment owning the last task of the
list, and every task the run reaches carries `IsHead = true` exactly
when its owning deployment's ID is that head ID. -/
theorem c8_is_head_flag (env : ExecEnv) (p : Plan) (h : p.Tasks ≠ []) :
    planLastID p = (p.Tasks.getLast h).Deployment.ID ∧
    ∀ x ∈ (Plan.Execute env p).executed,
      (x.2 = true ↔ x.1.Deployment.ID = planLastID p) := by
  constructor
  · rw [planLastID, List.getLast?_eq_getLast _ h]
  · intro x hx
    have hne : p.Tasks.isEmpty = false := by
      cases hts : p.Tasks with
      | nil => exact absurd hts h
      | cons a l => simp
    rw [Plan.Execute, if_neg (by simp [hne])] at hx
    have key : ∀ y ∈ (executeTasks env p.AlreadyDeployed (planLastID p) 0 p.Tasks [] []).1,
        y.2 = (y.1.Deployment.ID == planLastID p) :=
      executeTasks_trace_isHead env p.AlreadyDeployed (planLastID p) p.Tasks 0 [] []
        (by intro y hy; simp at hy)
    have hx' : x ∈ (executeTasks env p.AlreadyDeployed (planLastID p) 0 p.Tasks [] []).1 := by
      rw [finishRun] at hx
      cases hm : (executeTasks env p.AlreadyDeployed (planLastID p) 0 p.Tasks [] []).2.2 with
      | some e => rw [hm] at hx; exact hx
      | none => rw [hm] at hx; exact hx
    have := key x hx'
    rw [this]
    simp

/-- Witness for `c8_is_head_flag` at the concrete two-deployment plan
`planC1`: the head is deployment 000002, and the executed flags are
false for the task of 000001 and true for the task of 000002. -/
theorem c8_is_head_flag_witness :
    planC1.Tasks ≠ [] ∧
    (planLastID planC1 = "000002" ∧
     ((Plan.Execute envC1 planC1).executed.map fun x => (x.1.Deployment.ID, x.2)) =
       [("000001", false), ("000002", true)]) ∧
    ∀ x ∈ (Plan.Execute envC1 planC1).executed,
      (x.2 = true ↔ x.1.Deployment.ID = planLastID planC1) :=
  ⟨by decide, ⟨by decide, by decide⟩,
   (c8_is_head_flag envC1 planC1 (by decide)).2⟩

/-! ## Claim C1, amended -/

/-- Claim C1, amended: recording is batched after the task loop.  If the
loop fails, `Plan.Execute` records nothing in that run (earlier
fully-successful deployments included); if the loop finishes and every
`RecordDeployment` call succeeds, the run records exactly the completed
deployments, one row each. -/
theorem c1_amended_batched_recording (env : ExecEnv) (p : Plan) :
    ((executeTasks env p.AlreadyDeployed (planLastID p) 0 p.Tasks [] []).2.2.isSome = true →
      (Plan.Execute env p).recorded = []) ∧
    ((executeTasks env p.AlreadyDeployed (planLastID p) 0 p.Tasks [] []).2.2 = none →
      (∀ id, env.recordOk id = true) →
      (Plan.Execute env p).recorded =
        ((executeTasks env p.AlreadyDeployed (planLastID p) 0 p.Tasks [] []).2.1).map
          (fun d => (d.ID, CalculateChecksum d)) ∧
      ((Plan.Execute env p).recorded.map Prod.fst).Nodup) := by
  by_cases hne : p.Tasks.isEmpty
  · have hts : p.Tasks = [] := by simpa [List.isEmpty_iff] using hne
    constructor
    · intro habs
      rw [hts] at habs
      simp [executeTasks] at habs
    · intro _ _
      rw [Plan.Execute, if_pos hne]
      rw [hts]
      simp [executeTasks]
  · constructor
    · intro hsome
      rw [Plan.Execute, if_neg hne, finishRun]
      cases hm : (executeTasks env p.AlreadyDeployed (planLastID p) 0 p.Tasks [] []).2.2 with
      | some e => simp
      | none => rw [hm] at hsome; simp at hsome
    · intro hnone hrec
      rw [Plan.Execute, if_neg hne, finishRun, hnone]
      rw [recordLoop_allOk env hrec]
      refine ⟨by simp, ?_⟩
      simp only [List.nil_append, List.map_map]
      have hnodup := executeTasks_completed_nodup env p.AlreadyDeployed (planLastID p)
        p.Tasks 0 [] [] (by simp)
      simpa [Function.comp] using hnodup

/-- Witness for `c1_amended_batched_recording`: under an all-successful
oracle, the run over `planC1` records exactly its two completed
deployments, each once. -/
theorem c1_amended_batched_recording_witness :
    (Plan.Execute envAllOk planC1).recorded =
      ((executeTasks envAllOk planC1.AlreadyDeployed (planLastID planC1)
          0 planC1.Tasks [] []).2.1).map (fun d => (d.ID, CalculateChecksum d)) ∧
    ((Plan.Execute envAllOk planC1).recorded.map Prod.fst).Nodup :=
  (c1_amended_batched_recording envAllOk planC1).2 (by decide) (fun _ => rfl)

/-! ## Phase-map lookup lemmas -/

/-- Lookup in a non-empty association list. -/
theorem assocGet_cons {β : Type} (ka : String) (va : β) (rest : List (String × β))
    (k' : String) :
    assocGet ((ka, va) :: rest) k' = if ka == k' then some va else assocGet rest k' := by
  by_cases h : ka == k' <;> simp [assocGet, List.find?_cons, h]

/-- Lookup after a map write. -/
theorem assocGet_assocSet {β : Type} (l : List (String × β)) (k k' : String) (v : β) :
    assocGet (assocSet l k v) k' = if k == k' then some v else assocGet l k' := by
  induction l with
  | nil =>
      by_cases h : k == k' <;> simp [assocSet, assocGet_cons, assocGet, h]
  | cons a rest ih =>
      obtain ⟨ka, va⟩ := a
      rw [assocSet]
      by_cases hak : ka == k
      · have hak' : ka = k := by simpa using hak
        subst hak'
        rw [if_pos (by simp), assocGet_cons, assocGet_cons]
        by_cases hkk : ka == k' <;> simp [hkk]
      · rw [if_neg (by simpa using hak), assocGet_cons, assocGet_cons, ih]
        by_cases h1 : ka == k' <;> by_cases h2 : k == k'
        · have e1 : ka = k' := by simpa using h1
          have e2 : k = k' := by simpa using h2
          exact absurd (by rw [e1, e2] : ka = k) (by simpa using hak)
        · simp [h1, h2]
        · simp [h1, h2]
        · simp [h1, h2]

/-- The SQL path the phase map assigns to a phase name. -/
def sqlOf (ps : List (String × DeploymentPhase)) (phase : String) : Option String :=
  (assocGet ps phase).bind (fun dp => dp.SQLFilePath)

/-- SQL path after a map write. -/
theorem sqlOf_assocSet (ps : List (String × DeploymentPhase)) (k : String)
    (v : DeploymentPhase) (phase : String) :
    sqlOf (assocSet ps k v) phase = if k == phase then v.SQLFilePath else sqlOf ps phase := by
  rw [sqlOf, assocGet_assocSet]
  by_cases h : k == phase <;> simp [h, sqlOf]

/-- The zero-value read `loadFilesStep` performs agrees with `sqlOf`. -/
theorem sqlOf_getD (ps : List (String × DeploymentPhase)) (phase : String) :
    ((assocGet ps phase).getD ⟨none, none⟩).SQLFilePath = sqlOf ps phase := by
  cases h : assocGet ps phase <;> simp [sqlOf, h]

/-- The file `{phase}.sql` of a phase (literal per phase name). -/
def phaseSqlName : String → String
  | "expand" => "expand.sql"
  | "migrate" => "migrate.sql"
  | "contract" => "contract.sql"
  | "post" => "post.sql"
  | s => s ++ ".sql"

/-- Inversion of the file-name pattern: a successful match is one of the
eight literal file names, and fixes phase and type accordingly. -/
theorem filePattern_inv (n ph ft : String)
    (h : deploymentFilePattern n = some (ph, ft)) :
    (n = "expand.sh" ∧ ph = "expand" ∧ ft = "sh") ∨
    (n = "expand.sql" ∧ ph = "expand" ∧ ft = "sql") ∨
    (n = "migrate.sh" ∧ ph = "migrate" ∧ ft = "sh") ∨
    (n = "migrate.sql" ∧ ph = "migrate" ∧ ft = "sql") ∨
    (n = "contract.sh" ∧ ph = "contract" ∧ ft = "sh") ∨
    (n = "contract.sql" ∧ ph = "contract" ∧ ft = "sql") ∨
    (n = "post.sh" ∧ ph = "post" ∧ ft = "sh") ∨
    (n = "post.sql" ∧ ph = "post" ∧ ft = "sql") := by
  rw [deploymentFilePattern] at h
  split_ifs at h with h1 h2 h3 h4 h5 h6 h7 h8 <;>
    simp only [Option.some.injEq, Prod.mk.injEq] at h
  · exact Or.inl ⟨by simpa using h1, h.1.symm, h.2.symm⟩
  · exact Or.inr (Or.inl ⟨by simpa using h2, h.1.symm, h.2.symm⟩)
  · exact Or.inr (Or.inr (Or.inl ⟨by simpa using h3, h.1.symm, h.2.symm⟩))
  · exact Or.inr (Or.inr (Or.inr (Or.inl ⟨by simpa using h4, h.1.symm, h.2.symm⟩)))
  · exact Or.inr (Or.inr (Or.inr (Or.inr (Or.inl
      ⟨by simpa using h5, h.1.symm, h.2.symm⟩))))
  · exact Or.inr (Or.inr (Or.inr (Or.inr (Or.inr (Or.inl
      ⟨by simpa using h6, h.1.symm, h.2.symm⟩)))))
  · exact Or.inr (Or.inr (Or.inr (Or.inr (Or.inr (Or.inr (Or.inl
      ⟨by simpa using h7, h.1.symm, h.2.symm⟩))))))
  · exact Or.inr (Or.inr (Or.inr (Or.inr (Or.inr (Or.inr (Or.inr
      ⟨by simpa using h8, h.1.symm, h.2.symm⟩))))))

/-- Effect of one `loadFiles` iteration on a phase's SQL path: only an
entry that is literally the file `{phase}.sql` changes it. -/
theorem sqlOf_loadFilesStep (path phase : String)
    (hph : phase = "expand" ∨ phase = "migrate" ∨ phase = "contract" ∨ phase = "post")
    (ps : List (String × DeploymentPhase)) (e : DirEntry) :
    sqlOf (loadFilesStep path ps e) phase =
      if !e.isDir && e.name == phaseSqlName phase then some (path ++ "/" ++ e.name)
      else sqlOf ps phase := by
  obtain ⟨nm, hd, hx⟩ := e
  cases hd with
  | true => simp [loadFilesStep]
  | false =>
      rw [loadFilesStep]
      simp only [Bool.false_eq_true, if_false]
      cases hm : deploymentFilePattern nm with
      | none =>
          have hne : nm ≠ phaseSqlName phase := by
            rcases hph with rfl | rfl | rfl | rfl <;>
              (intro hcontra
               rw [phaseSqlName] at hcontra
               rw [hcontra] at hm
               rw [deploymentFilePattern] at hm
               simp at hm)
          simp [hne]
      | some pr =>
          obtain ⟨ph, ft⟩ := pr
          rcases hph with rfl | rfl | rfl | rfl <;>
            (rcases filePattern_inv nm ph ft hm with
              ⟨hn, hp, hf⟩ | ⟨hn, hp, hf⟩ | ⟨hn, hp, hf⟩ | ⟨hn, hp, hf⟩ |
              ⟨hn, hp, hf⟩ | ⟨hn, hp, hf⟩ | ⟨hn, hp, hf⟩ | ⟨hn, hp, hf⟩ <;>
              (subst hn
               subst hp
               subst hf
               cases hx <;>
                 simp [sqlOf_assocSet, sqlOf_getD, phaseSqlName]))

/-- The last entry of a listing that names a phase's SQL file. -/
def findLastSql (phase : String) : List DirEntry → Option DirEntry
  | [] => none
  | e :: rest =>
      match findLastSql phase rest with
      | some x => some x
      | none => if !e.isDir && e.name == phaseSqlName phase then some e else none

/-- The SQL path a phase holds after the whole `loadFiles` fold. -/
theorem sqlOf_foldl (path phase : String)
    (hph : phase = "expand" ∨ phase = "migrate" ∨ phase = "contract" ∨ phase = "post") :
    ∀ (entries : List DirEntry) (ps : List (String × DeploymentPhase)),
      sqlOf (entries.foldl (loadFilesStep path) ps) phase =
        match findLastSql phase entries with
        | some e => some (path ++ "/" ++ e.name)
        | none => sqlOf ps phase := by
  intro entries
  induction entries with
  | nil => intro ps; simp [findLastSql]
  | cons e rest ih =>
      intro ps
      rw [List.foldl_cons, ih, findLastSql]
      cases hfl : findLastSql phase rest with
      | some x => simp
      | none =>
          simp only
          rw [sqlOf_loadFilesStep path phase hph]
          by_cases hcond : (!e.isDir && e.name == phaseSqlName phase) = true
          · rw [if_pos hcond, if_pos hcond]
          · rw [if_neg hcond, if_neg hcond]

/-- A listing holds a phase's SQL file iff the backward search finds
one. -/
theorem findLastSql_isSome_iff (phase : String) (entries : List DirEntry) :
    (findLastSql phase entries).isSome = true ↔
      ∃ e ∈ entries, e.isDir = false ∧ e.name = phaseSqlName phase := by
  induction entries with
  | nil => simp [findLastSql]
  | cons e rest ih =>
      rw [findLastSql]
      cases hfl : findLastSql phase rest with
      | some x =>
          simp only [Option.isSome_some, true_iff]
          have hex : ∃ y ∈ rest, y.isDir = false ∧ y.name = phaseSqlName phase :=
            ih.mp (by rw [hfl]; rfl)
          obtain ⟨y, hy, h1, h2⟩ := hex
          exact ⟨y, List.mem_cons_of_mem _ hy, h1, h2⟩
      | none =>
          simp only
          by_cases hcond : (!e.isDir && e.name == phaseSqlName phase) = true
          · rw [if_pos hcond]
            simp only [Option.isSome_some, true_iff]
            have hcond' : e.isDir = false ∧ e.name = phaseSqlName phase := by
              simpa [Bool.and_eq_true] using hcond
            exact ⟨e, by simp, hcond'.1, hcond'.2⟩
          · rw [if_neg hcond]
            simp only [Option.isSome_none, Bool.false_eq_true, false_iff]
            intro hcontra
            obtain ⟨y, hy, h1, h2⟩ := hcontra
            rcases List.mem_cons.mp hy with rfl | hy'
            · exact hcond (by simp [h1, h2])
            · have hsome : (findLastSql phase rest).isSome = true :=
                ih.mpr ⟨y, hy', h1, h2⟩
              rw [hfl] at hsome
              simp at hsome

/-- Fields of any task a phase contributes. -/
theorem phaseTasks_mem (d : Deployment) (ph : String) (t : Task) (h : t ∈ phaseTasks d ph) :
    t.Deployment = d ∧ t.Phase = ph ∧
    (t.TaskType = "script" ∨
     (t.TaskType = "sql" ∧ ph ≠ "post" ∧ sqlOf d.Phases ph = some t.Path)) := by
  rw [phaseTasks] at h
  cases hget : assocGet d.Phases ph with
  | none => simp only [hget] at h; simp at h
  | some pd =>
      simp only [hget] at h
      have hsql : sqlOf d.Phases ph = pd.SQLFilePath := by simp [sqlOf, hget]
      rcases List.mem_append.mp h with h1 | h1
      · cases hs : pd.ScriptFilePath with
        | none => simp only [hs] at h1; simp at h1
        | some sp =>
            simp only [hs] at h1
            rcases List.mem_singleton.mp h1 with rfl
            exact ⟨rfl, rfl, Or.inl rfl⟩
      · cases hq : pd.SQLFilePath with
        | none => simp only [hq] at h1; simp at h1
        | some qp =>
            simp only [hq] at h1
            by_cases hpost : (ph != "post") = true
            · rw [if_pos hpost] at h1
              rcases List.mem_singleton.mp h1 with rfl
              refine ⟨rfl, rfl, Or.inr ⟨rfl, by simpa using hpost, by rw [hsql, hq]⟩⟩
            · rw [if_neg hpost] at h1
              simp at h1

/-- An SQL task with a given path belongs to a non-post phase whose map
entry holds that path. -/
theorem phaseTasks_sql_mem (d : Deployment) (ph pa : String)
    (hsql : sqlOf d.Phases ph = some pa) (hpost : ph ≠ "post") :
    ({ TaskType := "sql", Path := pa, Phase := ph, Deployment := d } : Task) ∈
      phaseTasks d ph := by
  rw [phaseTasks]
  cases hget : assocGet d.Phases ph with
  | none => rw [sqlOf, hget] at hsql; exact Option.noConfusion hsql
  | some pd =>
      rw [sqlOf, hget] at hsql
      simp only [Option.some_bind] at hsql
      refine List.mem_append.mpr (Or.inr ?_)
      simp only [hsql]
      rw [if_pos (by simpa using hpost)]
      simp

/-- Fields extracted from a successful `loadDeployment`. -/
theorem loadDeployment_inv (fs : FS) (root id dirName : String) (d : Deployment)
    (h : loadDeployment fs root id dirName = some d) :
    d.ID = id ∧ d.Phases = loadFiles fs (root ++ "/" ++ dirName) dirName := by
  rw [loadDeployment] at h
  cases hm : deploymentDirPattern dirName with
  | none =>
      simp only [hm] at h
      exact Option.noConfusion h
  | some pr =>
      simp only [hm, Option.some.injEq] at h
      rw [← h]
      exact ⟨rfl, rfl⟩

/-! ## Claim C4, amended -/

/-- Claim C4, amended: for a loaded deployment and a phase among expand,
migrate and contract, the plan's task list contains an SQL task for that
phase exactly when a file named `{phase}.sql` exists in the deployment
directory — content plays no role, so a comment-only SQL file still
yields its SQL task. -/
theorem c4_amended_sql_task_iff_file (fs : FS) (root id dirName phase : String)
    (d : Deployment)
    (hph : phase = "expand" ∨ phase = "migrate" ∨ phase = "contract")
    (hload : loadDeployment fs root id dirName = some d) :
    (∃ t ∈ d.Tasks, t.TaskType = "sql" ∧ t.Phase = phase) ↔
    (∃ e ∈ fs.subEntries dirName, e.isDir = false ∧ e.name = phaseSqlName phase) := by
  have hph4 : phase = "expand" ∨ phase = "migrate" ∨ phase = "contract" ∨ phase = "post" := by
    tauto
  have hphases := (loadDeployment_inv fs root id dirName d hload).2
  have key : sqlOf d.Phases phase =
      match findLastSql phase (fs.subEntries dirName) with
      | some e => some (root ++ "/" ++ dirName ++ "/" ++ e.name)
      | none => none := by
    rw [hphases, loadFiles, sqlOf_foldl (root ++ "/" ++ dirName) phase hph4]
    cases findLastSql phase (fs.subEntries dirName) <;> simp [sqlOf, assocGet]
  have hpost : phase ≠ "post" := by
    rcases hph with rfl | rfl | rfl <;> simp
  constructor
  · rintro ⟨t, ht, htype, hphase⟩
    obtain ⟨ph, _, htm⟩ := List.mem_flatMap.mp ht
    obtain ⟨_, hph2, hkind⟩ := phaseTasks_mem d ph t htm
    rcases hkind with hscript | ⟨_, _, hsql⟩
    · rw [htype] at hscript; simp at hscript
    · rw [hphase] at hph2
      rw [← hph2] at hsql
      rw [key] at hsql
      cases hfl : findLastSql phase (fs.subEntries dirName) with
      | none => rw [hfl] at hsql; simp at hsql
      | some x =>
          exact (findLastSql_isSome_iff phase _).mp (by rw [hfl]; rfl)
  · rintro ⟨e, he, h1, h2⟩
    have hsome : (findLastSql phase (fs.subEntries dirName)).isSome = true :=
      (findLastSql_isSome_iff phase _).mpr ⟨e, he, h1, h2⟩
    cases hfl : findLastSql phase (fs.subEntries dirName) with
    | none => rw [hfl] at hsome; simp at hsome
    | some x =>
        have hsql : sqlOf d.Phases phase =
            some (root ++ "/" ++ dirName ++ "/" ++ x.name) := by
          rw [key, hfl]
        refine ⟨{ TaskType := "sql", Path := root ++ "/" ++ dirName ++ "/" ++ x.name,
                  Phase := phase, Deployment := d }, ?_, rfl, rfl⟩
        rw [Deployment.Tasks]
        refine List.mem_flatMap.mpr ⟨phase, ?_, phaseTasks_sql_mem d phase _ hsql hpost⟩
        rcases hph with rfl | rfl | rfl <;> simp

/-- The deployment loaded from `fsC4`. -/
def dC4 : Deployment :=
  (loadDeployment fsC4 "m" "000001" "000001_a").getD noTask.Deployment

/-- Witness for `c4_amended_sql_task_iff_file` at the concrete
comment-only filesystem `fsC4`. -/
theorem c4_amended_sql_task_iff_file_witness :
    ((∃ t ∈ dC4.Tasks, t.TaskType = "sql" ∧ t.Phase = "expand") ↔
      (∃ e ∈ fsC4.subEntries "000001_a", e.isDir = false ∧ e.name = phaseSqlName "expand")) ∧
    specStrippedNonEmpty (fsC4.content "m/000001_a/expand.sql") = false :=
  ⟨c4_amended_sql_task_iff_file fsC4 "m" "000001" "000001_a" "expand" dC4
      (Or.inl rfl) (by decide),
   by decide⟩

/-! ## Comparator lemmas and claim C7 -/

/-- Search of an appended list. -/
theorem find?_append {α : Type} (l1 l2 : List α) (p : α → Bool) :
    (l1 ++ l2).find? p =
      match l1.find? p with
      | some x => some x
      | none => l2.find? p := by
  induction l1 with
  | nil => simp
  | cons a rest ih =>
      by_cases h : p a
      · simp [List.find?_cons, h]
      · simp only [List.cons_append, List.find?_cons,
          show p a = false from by simpa using h]
        exact ih

/-- Lookup in the ledger map built by the overwrite fold: the last
matching record wins, falling back to the initial map. -/
theorem recordMap_get (applied : List DeploymentDBRecord) (k : String) :
    ∀ m, assocGet (applied.foldl (fun m r => assocSet m r.ID r) m) k =
      match applied.reverse.find? (fun r => r.ID == k) with
      | some r => some r
      | none => assocGet m k := by
  induction applied with
  | nil => intro m; simp
  | cons r rest ih =>
      intro m
      rw [List.foldl_cons, ih, List.reverse_cons, find?_append]
      cases hrf : rest.reverse.find? (fun r => r.ID == k) with
      | some x => simp
      | none =>
          rw [assocGet_assocSet]
          by_cases hp : (r.ID == k) = true
          · rw [if_pos hp]
            simp [List.find?_singleton, hp]
          · rw [if_neg hp]
            simp [List.find?_singleton,
              show (r.ID == k) = false from by simpa using hp]

/-- With distinct keys, searching the reversed list finds the same
record as searching forwards. -/
theorem reverse_find_nodup {α : Type} (f : α → String) (l : List α) (k : String)
    (h : (l.map f).Nodup) :
    l.reverse.find? (fun x => f x == k) = l.find? (fun x => f x == k) := by
  induction l with
  | nil => simp
  | cons a rest ih =>
      simp only [List.map_cons, List.nodup_cons] at h
      rw [List.reverse_cons, find?_append, ih h.2]
      by_cases hp : (f a == k) = true
      · have hk : f a = k := by simpa using hp
        cases hrf : rest.find? (fun x => f x == k) with
        | some x =>
            have hxmem : x ∈ rest := List.mem_of_find?_eq_some hrf
            have hpx := List.find?_some hrf
            have hfx : f x = k := by simpa using hpx
            exact absurd (by rw [hk, ← hfx]; exact List.mem_map_of_mem f hxmem) h.1
        | none => simp [List.find?_cons, hp]
      · have hp' : (f a == k) = false := by simpa using hp
        cases hrf : rest.find? (fun x => f x == k) with
        | some x => simp [List.find?_cons, hp', hrf]
        | none => simp [List.find?_singleton, hp', List.find?_cons, hrf]

/-- Effect of the whole classification fold on each field. -/
theorem classify_foldl (appliedMap : List (String × DeploymentDBRecord)) :
    ∀ (l : List Deployment) (init : DeploymentStatus),
      (l.foldl (classifyStep appliedMap) init).Local = init.Local ∧
      (l.foldl (classifyStep appliedMap) init).Missing = init.Missing ∧
      (l.foldl (classifyStep appliedMap) init).Applied =
        init.Applied ++ l.filterMap (fun d => (assocGet appliedMap d.ID).map
          (fun r => { d with AppliedAt := some r.AppliedAt })) ∧
      (l.foldl (classifyStep appliedMap) init).Pending =
        init.Pending ++ l.filter (fun d => (assocGet appliedMap d.ID).isNone) := by
  intro l
  induction l with
  | nil => intro init; simp
  | cons d rest ih =>
      intro init
      rw [List.foldl_cons]
      obtain ⟨ih1, ih2, ih3, ih4⟩ := ih (classifyStep appliedMap init d)
      cases hget : assocGet appliedMap d.ID with
      | some r =>
          refine ⟨?_, ?_, ?_, ?_⟩
          · rw [ih1, classifyStep, hget]
          · rw [ih2, classifyStep, hget]
          · rw [ih3, classifyStep, hget]
            simp [List.filterMap_cons, hget]
          · rw [ih4, classifyStep, hget]
            simp [List.filter_cons, hget]
      | none =>
          refine ⟨?_, ?_, ?_, ?_⟩
          · rw [ih1, classifyStep, hget]
          · rw [ih2, classifyStep, hget]
          · rw [ih3, classifyStep, hget]
            simp [List.filterMap_cons, hget]
          · rw [ih4, classifyStep, hget]
            simp [List.filter_cons, hget]

/-- Effect of the whole missing-detection fold on each field. -/
theorem missing_foldl (localIDs : List String) :
    ∀ (l : List DeploymentDBRecord) (init : DeploymentStatus),
      (l.foldl (missingStep localIDs) init).Local = init.Local ∧
      (l.foldl (missingStep localIDs) init).Applied = init.Applied ∧
      (l.foldl (missingStep localIDs) init).Pending = init.Pending ∧
      (l.foldl (missingStep localIDs) init).Missing =
        init.Missing ++ l.filterMap (fun r =>
          if localIDs.contains r.ID then none
          else some { ID := r.ID, Name := r.Name, AppliedAt := some r.AppliedAt,
                      Phases := [], Directory := "" }) := by
  intro l
  induction l with
  | nil => intro init; simp
  | cons r rest ih =>
      intro init
      rw [List.foldl_cons]
      obtain ⟨ih1, ih2, ih3, ih4⟩ := ih (missingStep localIDs init r)
      by_cases hc : localIDs.contains r.ID
      · have hc' : r.ID ∈ localIDs := by simpa using hc
        refine ⟨?_, ?_, ?_, ?_⟩
        · rw [ih1, missingStep, if_pos hc]
        · rw [ih2, missingStep, if_pos hc]
        · rw [ih3, missingStep, if_pos hc]
        · rw [ih4, missingStep, if_pos hc]
          simp [List.filterMap_cons, hc']
      · have hc' : r.ID ∉ localIDs := by simpa using hc
        refine ⟨?_, ?_, ?_, ?_⟩
        · rw [ih1, missingStep, if_neg hc]
        · rw [ih2, missingStep, if_neg hc]
        · rw [ih3, missingStep, if_neg hc]
        · rw [ih4, missingStep, if_neg hc]
          simp [List.filterMap_cons, hc', List.append_assoc]

/-! ## Claim C7 -/

/-- Claim C7: `CompareDeployments` partitions exactly.  With distinct
ledger IDs, a local deployment with a matching ledger record lands in
Applied with `AppliedAt` populated from that record, a local deployment
without a match lands in Pending, and every ledger record whose ID
matches no local deployment yields exactly one synthetic Missing
deployment carrying the record's ID, name and timestamp. -/
theorem c7_compare_partition (localDeployments : List Deployment)
    (applied : List DeploymentDBRecord)
    (hA : (applied.map (fun r => r.ID)).Nodup) :
    (CompareDeployments localDeployments applied).Local = localDeployments ∧
    (CompareDeployments localDeployments applied).Applied =
      localDeployments.filterMap (fun d =>
        (applied.find? (fun r => r.ID == d.ID)).map
          (fun r => { d with AppliedAt := some r.AppliedAt })) ∧
    (CompareDeployments localDeployments applied).Pending =
      localDeployments.filter (fun d =>
        (applied.find? (fun r => r.ID == d.ID)).isNone) ∧
    (CompareDeployments localDeployments applied).Missing =
      applied.filterMap (fun r =>
        if (localDeployments.map (fun d => d.ID)).contains r.ID then none
        else some { ID := r.ID, Name := r.Name, AppliedAt := some r.AppliedAt,
                    Phases := [], Directory := "" }) := by
  have hmap : ∀ k, assocGet (applied.foldl (fun m r => assocSet m r.ID r) []) k =
      applied.find? (fun r => r.ID == k) := by
    intro k
    rw [recordMap_get applied k [], reverse_find_nodup (fun r => r.ID) applied k hA]
    cases hf : applied.find? (fun r => r.ID == k) with
    | some r => rfl
    | none => simp [assocGet]
  rw [CompareDeployments]
  obtain ⟨m1, m2, m3, m4⟩ := missing_foldl (localDeployments.map (fun d => d.ID)) applied
    (localDeployments.foldl
      (classifyStep (applied.foldl (fun m r => assocSet m r.ID r) []))
      { Local := localDeployments, Applied := [], Pending := [], Missing := [] })
  obtain ⟨c1, c2, c3, c4⟩ := classify_foldl
    (applied.foldl (fun m r => assocSet m r.ID r) []) localDeployments
    { Local := localDeployments, Applied := [], Pending := [], Missing := [] }
  refine ⟨?_, ?_, ?_, ?_⟩
  · rw [m1, c1]
  · rw [m2, c3]
    simp only [List.nil_append]
    apply List.filterMap_congr
    intro d _
    rw [hmap d.ID]
  · rw [m3, c4]
    simp only [List.nil_append]
    apply List.filter_congr
    intro d _
    rw [hmap d.ID]
  · rw [m4, c2]
    simp

/-- Witness for `c7_compare_partition` on local `{000001, 000002}` and
ledger `{000001, 000003}`: 000001 is Applied with the ledger timestamp,
000002 is Pending, and 000003 is Missing. -/
theorem c7_compare_partition_witness :
    ((CompareDeployments
        [{ ID := "000001", Name := "a", AppliedAt := none, Phases := [], Directory := "" },
         { ID := "000002", Name := "b", AppliedAt := none, Phases := [], Directory := "" }]
        [{ ID := "000001", Name := "a", AppliedAt := 5, Checksum := "c1" },
         { ID := "000003", Name := "c", AppliedAt := 7, Checksum := "c3" }]).Applied.map
      (fun d => (d.ID, d.AppliedAt)) = [("000001", some 5)] ∧
     (CompareDeployments
        [{ ID := "000001", Name := "a", AppliedAt := none, Phases := [], Directory := "" },
         { ID := "000002", Name := "b", AppliedAt := none, Phases := [], Directory := "" }]
        [{ ID := "000001", Name := "a", AppliedAt := 5, Checksum := "c1" },
         { ID := "000003", Name := "c", AppliedAt := 7, Checksum := "c3" }]).Pending.map
      (fun d => d.ID) = ["000002"] ∧
     (CompareDeployments
        [{ ID := "000001", Name := "a", AppliedAt := none, Phases := [], Directory := "" },
         { ID := "000002", Name := "b", AppliedAt := none, Phases := [], Directory := "" }]
        [{ ID := "000001", Name := "a", AppliedAt := 5, Checksum := "c1" },
         { ID := "000003", Name := "c", AppliedAt := 7, Checksum := "c3" }]).Missing =
      [{ ID := "000003", Name := "c", AppliedAt := some 7, Phases := [], Directory := "" }]) ∧
    (CompareDeployments
        [{ ID := "000001", Name := "a", AppliedAt := none, Phases := [], Directory := "" },
         { ID := "000002", Name := "b", AppliedAt := none, Phases := [], Directory := "" }]
        [{ ID := "000001", Name := "a", AppliedAt := 5, Checksum := "c1" },
         { ID := "000003", Name := "c", AppliedAt := 7, Checksum := "c3" }]).Local =
      [{ ID := "000001", Name := "a", AppliedAt := none, Phases := [], Directory := "" },
       { ID := "000002", Name := "b", AppliedAt := none, Phases := [], Directory := "" }] :=
  ⟨⟨by decide, by decide, by decide⟩,
   (c7_compare_partition
      [{ ID := "000001", Name := "a", AppliedAt := none, Phases := [], Directory := "" },
       { ID := "000002", Name := "b", AppliedAt := none, Phases := [], Directory := "" }]
      [{ ID := "000001", Name := "a", AppliedAt := 5, Checksum := "c1" },
       { ID := "000003", Name := "c", AppliedAt := 7, Checksum := "c3" }] (by decide)).1⟩

/-! ## Byte order: totality and transitivity -/

/-- Byte-wise comparison is total. -/
theorem bytesLE_total : ∀ xs ys : List Char, bytesLE xs ys = true ∨ bytesLE ys xs = true := by
  intro xs
  induction xs with
  | nil => intro ys; exact Or.inl rfl
  | cons a as ih =>
      intro ys
      cases ys with
      | nil => exact Or.inr rfl
      | cons b bs =>
          by_cases hab : a < b
          · exact Or.inl (by simp [bytesLE, hab])
          · by_cases hba : b < a
            · exact Or.inr (by simp [bytesLE, hba])
            · have hae : a = b := le_antisymm (not_lt.mp hba) (not_lt.mp hab)
              subst hae
              rcases ih bs with h | h
              · exact Or.inl (by simp [bytesLE, h])
              · exact Or.inr (by simp [bytesLE, h])

/-- Byte-wise comparison is transitive. -/
theorem bytesLE_trans : ∀ xs ys zs : List Char,
    bytesLE xs ys = true → bytesLE ys zs = true → bytesLE xs zs = true := by
  intro xs
  induction xs with
  | nil => intro ys zs _ _; rfl
  | cons a as ih =>
      intro ys zs h1 h2
      cases ys with
      | nil => simp [bytesLE] at h1
      | cons b bs =>
          cases zs with
          | nil => simp [bytesLE] at h2
          | cons c cs =>
              rw [bytesLE] at h1 h2 ⊢
              by_cases hab : a < b
              · by_cases hbc : b < c
                · rw [if_pos (lt_trans hab hbc)]
                · by_cases hcb : c < b
                  · rw [if_neg hbc, if_pos hcb] at h2
                    simp at h2
                  · have : b = c := le_antisymm (not_lt.mp hcb) (not_lt.mp hbc)
                    subst this
                    rw [if_pos hab]
              · by_cases hba : b < a
                · rw [if_neg hab, if_pos hba] at h1
                  simp at h1
                · have : a = b := le_antisymm (not_lt.mp hba) (not_lt.mp hab)
                  subst this
                  rw [if_neg hab, if_neg hba] at h1
                  by_cases hbc : a < c
                  · rw [if_pos hbc]
                  · by_cases hcb : c < a
                    · rw [if_neg hbc, if_pos hcb] at h2
                      simp at h2
                    · rw [if_neg hbc, if_neg hcb] at h2 ⊢
                      exact ih bs cs h1 h2

/-- Totality instance for the ID comparison `sortByID` uses. -/
instance : IsTotal Deployment (fun a b => bytesLE a.ID.data b.ID.data = true) :=
  ⟨fun a b => bytesLE_total a.ID.data b.ID.data⟩

/-- Transitivity instance for the ID comparison `sortByID` uses. -/
instance : IsTrans Deployment (fun a b => bytesLE a.ID.data b.ID.data = true) :=
  ⟨fun a b c => bytesLE_trans a.ID.data b.ID.data c.ID.data⟩

/-! ## Keys of the directory map -/

/-- Keys present after a map write. -/
theorem mem_keys_assocSet {β : Type} (m : List (String × β)) (k : String) (v : β)
    (x : String) :
    x ∈ (assocSet m k v).map Prod.fst ↔ x = k ∨ x ∈ m.map Prod.fst := by
  induction m with
  | nil => simp [assocSet]
  | cons a rest ih =>
      obtain ⟨ka, va⟩ := a
      rw [assocSet]
      by_cases h : ka == k
      · have : ka = k := by simpa using h
        subst this
        rw [if_pos (by simp)]
        simp only [List.map_cons, List.mem_cons]
        tauto
      · rw [if_neg h]
        simp only [List.map_cons, List.mem_cons, ih]
        constructor
        · rintro (h1 | h1 | h1)
          · exact Or.inr (Or.inl h1)
          · exact Or.inl h1
          · exact Or.inr (Or.inr h1)
        · rintro (h1 | h1 | h1)
          · exact Or.inr (Or.inl h1)
          · exact Or.inl h1
          · exact Or.inr (Or.inr h1)

/-- A map write preserves distinctness of keys. -/
theorem keys_assocSet_nodup {β : Type} (m : List (String × β)) (k : String) (v : β)
    (h : (m.map Prod.fst).Nodup) : ((assocSet m k v).map Prod.fst).Nodup := by
  induction m with
  | nil => simp [assocSet]
  | cons a rest ih =>
      obtain ⟨ka, va⟩ := a
      simp only [List.map_cons, List.nodup_cons] at h
      rw [assocSet]
      by_cases hk : ka == k
      · have : ka = k := by simpa using hk
        subst this
        rw [if_pos (by simp)]
        simp only [List.map_cons, List.nodup_cons]
        exact h
      · rw [if_neg hk]
        simp only [List.map_cons, List.nodup_cons]
        constructor
        · intro hmem
          rcases (mem_keys_assocSet rest k v ka).mp hmem with h1 | h1
          · exact absurd h1 (by simpa using hk)
          · exact h.1 h1
        · exact ih h.2

/-- The directory-scan fold keeps keys distinct. -/
theorem dirs_keys_nodup (entries : List DirEntry) :
    ∀ m : List (String × String), ((m.map Prod.fst).Nodup) →
      (((entries.foldl deploymentDirsStep m)).map Prod.fst).Nodup := by
  induction entries with
  | nil => intro m h; exact h
  | cons e rest ih =>
      intro m h
      rw [List.foldl_cons]
      apply ih
      rw [deploymentDirsStep]
      by_cases hd : !e.isDir
      · rw [if_pos hd]; exact h
      · rw [if_neg hd]
        cases hm : deploymentDirPattern e.name with
        | none => exact h
        | some pr => exact keys_assocSet_nodup m pr.1 e.name h

/-- A key is in the scanned directory map iff some directory entry
matches it. -/
theorem mem_dirs_keys (entries : List DirEntry) :
    ∀ (m : List (String × String)) (id : String),
      id ∈ ((entries.foldl deploymentDirsStep m)).map Prod.fst ↔
        (∃ e ∈ entries, e.isDir = true ∧
          ∃ nm, deploymentDirPattern e.name = some (id, nm)) ∨
        id ∈ m.map Prod.fst := by
  induction entries with
  | nil => intro m id; simp
  | cons e rest ih =>
      intro m id
      rw [List.foldl_cons, ih]
      rw [deploymentDirsStep]
      by_cases hd : !e.isDir
      · rw [if_pos hd]
        have hdf : e.isDir = false := by simpa using hd
        constructor
        · rintro (⟨y, hy, h1, h2⟩ | h1)
          · exact Or.inl ⟨y, List.mem_cons_of_mem _ hy, h1, h2⟩
          · exact Or.inr h1
        · rintro (⟨y, hy, h1, h2⟩ | h1)
          · rcases List.mem_cons.mp hy with rfl | hy'
            · rw [hdf] at h1; simp at h1
            · exact Or.inl ⟨y, hy', h1, h2⟩
          · exact Or.inr h1
      · have hdt : e.isDir = true := by simpa using hd
        rw [if_neg hd]
        cases hm : deploymentDirPattern e.name with
        | none =>
            constructor
            · rintro (⟨y, hy, h1, h2⟩ | h1)
              · exact Or.inl ⟨y, List.mem_cons_of_mem _ hy, h1, h2⟩
              · exact Or.inr h1
            · rintro (⟨y, hy, h1, h2⟩ | h1)
              · rcases List.mem_cons.mp hy with rfl | hy'
                · rw [hm] at h2; obtain ⟨nm, h2⟩ := h2; exact Option.noConfusion h2
                · exact Or.inl ⟨y, hy', h1, h2⟩
              · exact Or.inr h1
        | some pr =>
            obtain ⟨prid, prnm⟩ := pr
            constructor
            · rintro (⟨y, hy, h1, h2⟩ | h1)
              · exact Or.inl ⟨y, List.mem_cons_of_mem _ hy, h1, h2⟩
              · rcases (mem_keys_assocSet m prid e.name id).mp h1 with h2 | h2
                · refine Or.inl ⟨e, by simp, hdt, prnm, ?_⟩
                  rw [hm, h2]
                · exact Or.inr h2
            · rintro (⟨y, hy, h1, h2⟩ | h1)
              · rcases List.mem_cons.mp hy with rfl | hy'
                · obtain ⟨nm, h2⟩ := h2
                  rw [hm] at h2
                  have hpe : prid = id ∧ prnm = nm := by simpa using h2
                  exact Or.inr ((mem_keys_assocSet m prid y.name id).mpr (Or.inl hpe.1.symm))
                · exact Or.inl ⟨y, hy', h1, h2⟩
              · exact Or.inr ((mem_keys_assocSet m prid e.name id).mpr (Or.inr h1))

/-- Pointwise description of a successful `mapMOpt`. -/
theorem mapMOpt_forall₂ {α β : Type} (f : α → Option β) :
    ∀ (l : List α) (out : List β), mapMOpt f l = some out →
      List.Forall₂ (fun a b => f a = some b) l out := by
  intro l
  induction l with
  | nil =>
      intro out h
      simp only [mapMOpt, Option.some.injEq] at h
      rw [← h]
      exact List.Forall₂.nil
  | cons a rest ih =>
      intro out h
      rw [mapMOpt] at h
      cases hfa : f a with
      | none =>
          simp only [hfa] at h
          exact Option.noConfusion h
      | some b =>
          simp only [hfa] at h
          cases hrest : mapMOpt f rest with
          | none =>
              simp only [hrest] at h
              exact Option.noConfusion h
          | some bs =>
              simp only [hrest, Option.some.injEq] at h
              rw [← h]
              exact List.Forall₂.cons hfa (ih bs hrest)

/-- A `Forall₂` between projections gives equal maps. -/
theorem forall₂_map_eq {α β : Type} (g : β → String) (h : α → String) :
    ∀ (l : List α) (out : List β), List.Forall₂ (fun a b => g b = h a) l out →
      out.map g = l.map h := by
  intro l
  induction l with
  | nil =>
      intro out hf
      cases hf
      rfl
  | cons a rest ih =>
      intro out hf
      cases hf with
      | cons h1 h2 => simp [ih _ h2, h1]

/-! ## LoadDeployments invariants -/

/-- Decomposition of a successful `LoadDeployments`. -/
theorem LoadDeployments_inv (fs : FS) (root : String) (ds : List Deployment)
    (h : LoadDeployments fs root = some ds) :
    ∃ out, mapMOpt (fun p => loadDeployment fs root p.1 p.2)
        (fs.rootEntries.foldl deploymentDirsStep []) = some out ∧ ds = sortByID out := by
  rw [LoadDeployments] at h
  cases hm : mapMOpt (fun p => loadDeployment fs root p.1 p.2)
      (fs.rootEntries.foldl deploymentDirsStep []) with
  | none => rw [hm] at h; exact Option.noConfusion h
  | some out =>
      rw [hm] at h
      exact ⟨out, rfl, (Option.some.inj h).symm⟩

/-- The loaded list is a permutation of the per-directory loads, and its
IDs are the keys of the scanned directory map. -/
theorem LoadDeployments_ids (fs : FS) (root : String) (ds : List Deployment)
    (h : LoadDeployments fs root = some ds) :
    ∃ out, ds = sortByID out ∧
      out.map Deployment.ID =
        (fs.rootEntries.foldl deploymentDirsStep []).map Prod.fst := by
  obtain ⟨out, hout, hds⟩ := LoadDeployments_inv fs root ds h
  refine ⟨out, hds, ?_⟩
  have hf2 := mapMOpt_forall₂ _ _ _ hout
  have hf2' : List.Forall₂ (fun (p : String × String) (d : Deployment) => d.ID = p.1)
      (fs.rootEntries.foldl deploymentDirsStep []) out :=
    List.Forall₂.imp (fun a b hab => (loadDeployment_inv fs root a.1 a.2 b hab).1) hf2
  exact forall₂_map_eq Deployment.ID Prod.fst _ out hf2'

/-- The result of `sortByID` is a permutation of its input. -/
theorem sortByID_perm (ds : List Deployment) : (sortByID ds).Perm ds :=
  List.perm_insertionSort (fun a b : Deployment => bytesLE a.ID.data b.ID.data = true) ds

/-- The result of `sortByID` is sorted under byte-wise ID comparison. -/
theorem sortByID_sorted (ds : List Deployment) :
    List.Pairwise (fun a b => bytesLE a.ID.data b.ID.data = true) (sortByID ds) := by
  have hs := List.sorted_insertionSort
    (fun a b : Deployment => bytesLE a.ID.data b.ID.data = true) ds
  exact hs

/-- IDs of a loaded deployment list are distinct. -/
theorem LoadDeployments_ids_nodup (fs : FS) (root : String) (ds : List Deployment)
    (h : LoadDeployments fs root = some ds) :
    (ds.map Deployment.ID).Nodup := by
  obtain ⟨out, hds, hids⟩ := LoadDeployments_ids fs root ds h
  have hkeys : (((fs.rootEntries.foldl deploymentDirsStep []).map Prod.fst)).Nodup :=
    dirs_keys_nodup fs.rootEntries [] (by simp)
  have hout : (out.map Deployment.ID).Nodup := by rw [hids]; exact hkeys
  have hperm : (ds.map Deployment.ID).Perm (out.map Deployment.ID) := by
    rw [hds]; exact (sortByID_perm out).map Deployment.ID
  exact hperm.nodup_iff.mpr hout

/-! ## Claim C10 -/

/-- Claim C10: `LoadDeployments` returns at most one deployment per ID.
Its IDs are pairwise distinct, and an ID appears exactly when some
directory entry of the root matches the deployment pattern with that ID
— so when several directories share an ID prefix, one of them is loaded
and the rest are silently ignored, with no error and no duplicates. -/
theorem c10_load_dedup (fs : FS) (root : String) (ds : List Deployment)
    (h : LoadDeployments fs root = some ds) :
    (ds.map Deployment.ID).Nodup ∧
    ∀ id, ((∃ e ∈ fs.rootEntries, e.isDir = true ∧
        ∃ nm, deploymentDirPattern e.name = some (id, nm)) ↔
      ∃ d ∈ ds, d.ID = id) := by
  refine ⟨LoadDeployments_ids_nodup fs root ds h, ?_⟩
  intro id
  obtain ⟨out, hds, hids⟩ := LoadDeployments_ids fs root ds h
  have hidmem : id ∈ ds.map Deployment.ID ↔
      id ∈ (fs.rootEntries.foldl deploymentDirsStep []).map Prod.fst := by
    rw [← hids, hds]
    exact ⟨fun hm => ((sortByID_perm out).map Deployment.ID).mem_iff.mp hm,
           fun hm => ((sortByID_perm out).map Deployment.ID).mem_iff.mpr hm⟩
  constructor
  · intro hex
    have : id ∈ (fs.rootEntries.foldl deploymentDirsStep []).map Prod.fst :=
      (mem_dirs_keys fs.rootEntries [] id).mpr (Or.inl hex)
    obtain ⟨d, hd, hdid⟩ := List.mem_map.mp (hidmem.mpr this)
    exact ⟨d, hd, hdid⟩
  · rintro ⟨d, hd, rfl⟩
    have : d.ID ∈ (fs.rootEntries.foldl deploymentDirsStep []).map Prod.fst :=
      hidmem.mp (List.mem_map_of_mem Deployment.ID hd)
    rcases (mem_dirs_keys fs.rootEntries [] d.ID).mp this with hx | hx
    · exact hx
    · simp at hx

/-- Two directories sharing the ID prefix 000001. -/
def fsC10 : FS :=
  { rootEntries := [⟨"000001_a", true, true⟩, ⟨"000001_b", true, true⟩],
    subEntries := fun _ => [⟨"expand.sql", false, false⟩],
    content := fun _ => "SELECT 1;" }

/-- The deployments loaded from `fsC10`. -/
def dsC10 : List Deployment := (LoadDeployments fsC10 "m").getD []

/-- Witness for `c10_load_dedup` at the duplicate-ID listing `fsC10`:
the two directories `000001_a`, `000001_b` yield exactly one loaded
deployment, with no duplicate IDs. -/
theorem c10_load_dedup_witness :
    dsC10.map Deployment.ID = ["000001"] ∧
    ((dsC10.map Deployment.ID).Nodup ∧
     ∀ id, ((∃ e ∈ fsC10.rootEntries, e.isDir = true ∧
         ∃ nm, deploymentDirPattern e.name = some (id, nm)) ↔
       ∃ d ∈ dsC10, d.ID = id)) :=
  ⟨by decide, c10_load_dedup fsC10 "m" dsC10 (by decide)⟩

/-! ## Task-order lemmas and claim C5 -/

/-- Owner and phase of any task a deployment emits. -/
theorem tasks_mem_fields (d : Deployment) (t : Task) (h : t ∈ d.Tasks) :
    t.Deployment = d ∧
    (t.TaskType = "script" ∨ (t.TaskType = "sql" ∧ t.Phase ≠ "post")) := by
  rw [Deployment.Tasks] at h
  obtain ⟨ph, _, htm⟩ := List.mem_flatMap.mp h
  obtain ⟨hd, hp, hkind⟩ := phaseTasks_mem d ph t htm
  rcases hkind with hk | ⟨hk, hpost, _⟩
  · exact ⟨hd, Or.inl hk⟩
  · exact ⟨hd, Or.inr ⟨hk, by rw [hp]; exact hpost⟩⟩

/-- Tasks of a single phase are ordered: the script precedes the SQL
task. -/
theorem phaseTasks_pairwise (d : Deployment) (ph : String) :
    List.Pairwise taskOrdered (phaseTasks d ph) := by
  rw [phaseTasks]
  cases hget : assocGet d.Phases ph with
  | none => simp
  | some pd =>
      simp only
      cases hs : pd.ScriptFilePath with
      | none =>
          simp only
          cases hq : pd.SQLFilePath with
          | none => simp
          | some q =>
              simp only
              by_cases hpost : (ph != "post") = true
              · rw [if_pos hpost]; simp
              · rw [if_neg hpost]; simp
      | some s =>
          simp only
          cases hq : pd.SQLFilePath with
          | none => simp
          | some q =>
              simp only
              by_cases hpost : (ph != "post") = true
              · rw [if_pos hpost]
                refine List.Pairwise.cons ?_ (by simp)
                intro y hy
                rcases List.mem_singleton.mp (by simpa using hy) with rfl
                exact Or.inr ⟨rfl, Or.inr ⟨rfl, rfl, rfl⟩⟩
              · rw [if_neg hpost]; simp

/-- Tasks of an earlier phase precede tasks of a later phase of the same
deployment. -/
theorem cross_phase (d : Deployment) (ph1 ph2 : String)
    (hlt : phaseIdx ph1 < phaseIdx ph2) :
    ∀ x ∈ phaseTasks d ph1, ∀ y ∈ phaseTasks d ph2, taskOrdered x y := by
  intro x hx y hy
  obtain ⟨hd1, hp1, _⟩ := phaseTasks_mem d ph1 x hx
  obtain ⟨hd2, hp2, _⟩ := phaseTasks_mem d ph2 y hy
  refine Or.inr ⟨by rw [hd1, hd2], Or.inl ?_⟩
  rw [hp1, hp2]
  exact hlt

/-- All tasks of one deployment are pairwise ordered: phases in the
fixed order, script before SQL within a phase. -/
theorem tasks_pairwise (d : Deployment) : List.Pairwise taskOrdered d.Tasks := by
  rw [Deployment.Tasks]
  rw [List.pairwise_flatMap]
  refine ⟨fun ph _ => phaseTasks_pairwise d ph, ?_⟩
  refine List.Pairwise.cons ?_ (List.Pairwise.cons ?_ (List.Pairwise.cons ?_ ?_))
  · intro ph2 hph2
    have h2 : ph2 = "migrate" ∨ ph2 = "contract" ∨ ph2 = "post" := by simpa using hph2
    rcases h2 with rfl | rfl | rfl <;> exact cross_phase d _ _ (by decide)
  · intro ph2 hph2
    have h2 : ph2 = "contract" ∨ ph2 = "post" := by simpa using hph2
    rcases h2 with rfl | rfl <;> exact cross_phase d _ _ (by decide)
  · intro ph2 hph2
    have h2 : ph2 = "post" := by simpa using hph2
    rcases h2 with rfl
    exact cross_phase d _ _ (by decide)
  · simp

/-! ## Claim C5 -/

/-- Claim C5: the task list of every plan `BuildPlan` produces is
globally ordered — deployments in strictly ascending ID order with no
interleaving, phases inside a deployment in the fixed order expand,
migrate, contract, post, the script task before the SQL task within a
phase (this is exactly `taskOrdered` pairwise) — the post phase never
contributes an SQL task, and only pending deployments contribute at
all. -/
theorem c5_plan_order (fs : FS) (root : String)
    (applied : List DeploymentDBRecord) (p : Plan)
    (h : BuildPlan fs root applied = some p) :
    List.Pairwise taskOrdered p.Tasks ∧
    (∀ t ∈ p.Tasks, ¬(t.Phase = "post" ∧ t.TaskType = "sql")) ∧
    (∀ t ∈ p.Tasks, p.AlreadyDeployed.contains t.Deployment.ID = false) := by
  rw [BuildPlan] at h
  cases hl : LoadDeployments fs root with
  | none => rw [hl] at h; exact Option.noConfusion h
  | some lds =>
      rw [hl] at h
      have hp := (Option.some.inj h).symm
      obtain ⟨out, hmm, hsort⟩ := LoadDeployments_inv fs root lds hl
      have hsorted : List.Pairwise (fun a b => bytesLE a.ID.data b.ID.data = true) lds := by
        rw [hsort]; exact sortByID_sorted out
      have hnodup : (lds.map Deployment.ID).Nodup :=
        LoadDeployments_ids_nodup fs root lds hl
      have hne : List.Pairwise (fun a b : Deployment => a.ID ≠ b.ID) lds :=
        List.pairwise_map.mp hnodup
      have hstrict := hsorted.and hne
      subst hp
      refine ⟨?_, ?_, ?_⟩
      · rw [List.pairwise_flatMap]
        constructor
        · intro d _
          by_cases hc : (applied.map (fun r => r.ID)).contains d.ID
          · rw [if_pos hc]; exact List.Pairwise.nil
          · rw [if_neg hc]; exact tasks_pairwise d
        · refine hstrict.imp ?_
          intro d1 d2 hdd x hx y hy
          by_cases hc1 : (applied.map (fun r => r.ID)).contains d1.ID
          · rw [if_pos hc1] at hx; simp at hx
          · by_cases hc2 : (applied.map (fun r => r.ID)).contains d2.ID
            · rw [if_pos hc2] at hy; simp at hy
            · rw [if_neg hc1] at hx
              rw [if_neg hc2] at hy
              have ho1 := (tasks_mem_fields d1 x hx).1
              have ho2 := (tasks_mem_fields d2 y hy).1
              exact Or.inl ⟨by rw [ho1, ho2]; exact hdd.1, by rw [ho1, ho2]; exact hdd.2⟩
      · intro t ht
        obtain ⟨d, _, htd⟩ := List.mem_flatMap.mp ht
        by_cases hc : (applied.map (fun r => r.ID)).contains d.ID
        · rw [if_pos hc] at htd; simp at htd
        · rw [if_neg hc] at htd
          obtain ⟨_, hkind⟩ := tasks_mem_fields d t htd
          rintro ⟨hpost, hsql⟩
          rcases hkind with hk | ⟨hk, hnp⟩
          · rw [hsql] at hk; simp at hk
          · exact hnp hpost
      · intro t ht
        obtain ⟨d, _, htd⟩ := List.mem_flatMap.mp ht
        by_cases hc : (applied.map (fun r => r.ID)).contains d.ID
        · rw [if_pos hc] at htd; simp at htd
        · rw [if_neg hc] at htd
          rw [(tasks_mem_fields d t htd).1]
          simpa using hc

/-- Witness for `c5_plan_order` at the concrete two-deployment plan
`planC1`. -/
theorem c5_plan_order_witness :
    List.Pairwise taskOrdered planC1.Tasks ∧
    (∀ t ∈ planC1.Tasks, ¬(t.Phase = "post" ∧ t.TaskType = "sql")) ∧
    (∀ t ∈ planC1.Tasks, planC1.AlreadyDeployed.contains t.Deployment.ID = false) :=
  c5_plan_order fsC1 "m" [] planC1 (by decide)

/-! ## Decimal digit arithmetic (for claim C9) -/

/-- Lower bound of the digit-accumulation fold. -/
theorem digitsVal_ge : ∀ (cs : List Char) (a : Nat),
    a * 10 ^ cs.length ≤ cs.foldl (fun acc c => acc * 10 + (c.toNat - 48)) a := by
  intro cs
  induction cs with
  | nil => intro a; simp
  | cons c cs ih =>
      intro a
      rw [List.foldl_cons]
      calc a * 10 ^ (c :: cs).length = (a * 10) * 10 ^ cs.length := by
            simp [List.length_cons, pow_succ]
            ring
        _ ≤ (a * 10 + (c.toNat - 48)) * 10 ^ cs.length :=
            Nat.mul_le_mul_right _ (by omega)
        _ ≤ cs.foldl (fun acc c => acc * 10 + (c.toNat - 48)) (a * 10 + (c.toNat - 48)) :=
            ih _

/-- Digit bounds of a digit character. -/
theorem isDigit_toNat (c : Char) (h : c.isDigit = true) :
    48 ≤ c.toNat ∧ c.toNat ≤ 57 := by
  simp [Char.isDigit] at h
  exact ⟨h.1, h.2⟩

/-- Upper bound of the digit-accumulation fold. -/
theorem digitsVal_lt : ∀ (cs : List Char) (a : Nat),
    (∀ c ∈ cs, c.isDigit = true) →
    cs.foldl (fun acc c => acc * 10 + (c.toNat - 48)) a < (a + 1) * 10 ^ cs.length := by
  intro cs
  induction cs with
  | nil => intro a _; simp
  | cons c cs ih =>
      intro a hdig
      rw [List.foldl_cons]
      have hd := isDigit_toNat c (hdig c (by simp))
      calc cs.foldl (fun acc c => acc * 10 + (c.toNat - 48)) (a * 10 + (c.toNat - 48))
          < (a * 10 + (c.toNat - 48) + 1) * 10 ^ cs.length :=
            ih _ (fun x hx => hdig x (List.mem_cons_of_mem _ hx))
        _ ≤ ((a + 1) * 10) * 10 ^ cs.length := Nat.mul_le_mul_right _ (by omega)
        _ = (a + 1) * 10 ^ (c :: cs).length := by
            simp [List.length_cons, pow_succ]
            ring

/-- A strictly larger accumulator dominates, digits notwithstanding. -/
theorem digitsVal_mono_acc (cs ds : List Char) (a b : Nat)
    (hlen : cs.length = ds.length) (hdig : ∀ c ∈ cs, c.isDigit = true)
    (hab : a < b) :
    cs.foldl (fun acc c => acc * 10 + (c.toNat - 48)) a <
      ds.foldl (fun acc c => acc * 10 + (c.toNat - 48)) b := by
  calc cs.foldl (fun acc c => acc * 10 + (c.toNat - 48)) a
      < (a + 1) * 10 ^ cs.length := digitsVal_lt cs a hdig
    _ ≤ b * 10 ^ cs.length := Nat.mul_le_mul_right _ hab
    _ = b * 10 ^ ds.length := by rw [hlen]
    _ ≤ ds.foldl (fun acc c => acc * 10 + (c.toNat - 48)) b := digitsVal_ge ds b

/-- Byte order on equal-length digit prefixes gives numeric order. -/
theorem bytesLE_digits_le : ∀ (xs ys r1 r2 : List Char) (a : Nat),
    xs.length = ys.length →
    (∀ c ∈ xs, c.isDigit = true) → (∀ c ∈ ys, c.isDigit = true) →
    bytesLE (xs ++ r1) (ys ++ r2) = true →
    xs.foldl (fun acc c => acc * 10 + (c.toNat - 48)) a ≤
      ys.foldl (fun acc c => acc * 10 + (c.toNat - 48)) a := by
  intro xs
  induction xs with
  | nil =>
      intro ys r1 r2 a hlen _ _ _
      have : ys = [] := List.length_eq_zero.mp hlen.symm
      subst this
      exact le_refl _
  | cons x xs ih =>
      intro ys r1 r2 a hlen hdx hdy hle
      cases ys with
      | nil => simp at hlen
      | cons y ys =>
          rw [List.cons_append, List.cons_append, bytesLE] at hle
          rw [List.foldl_cons, List.foldl_cons]
          by_cases hxy : x < y
          · have hx := isDigit_toNat x (hdx x (by simp))
            have hy := isDigit_toNat y (hdy y (by simp))
            have hxyn : x.toNat < y.toNat := Char.lt_iff_val_lt_val.mp hxy
            refine le_of_lt (digitsVal_mono_acc xs ys _ _ (by simpa using hlen)
              (fun c hc => hdx c (List.mem_cons_of_mem _ hc)) (by omega))
          · by_cases hyx : y < x
            · rw [if_neg hxy, if_pos hyx] at hle
              simp at hle
            · have hxe : x = y := le_antisymm (not_lt.mp hyx) (not_lt.mp hxy)
              subst hxe
              rw [if_neg hxy, if_neg hyx] at hle
              exact ih ys r1 r2 _ (by simpa using hlen)
                (fun c hc => hdx c (List.mem_cons_of_mem _ hc))
                (fun c hc => hdy c (List.mem_cons_of_mem _ hc)) hle

/-! ## Pattern inversions for directory names -/

/-- Inversion of the directory-name pattern: the name splits into six
digits, an underscore, and the (non-empty) rest. -/
theorem dirPattern_inv (s id nm : String)
    (h : deploymentDirPattern s = some (id, nm)) :
    s.data = id.data ++ '_' :: nm.data ∧ id.data.length = 6 ∧
    ∀ c ∈ id.data, c.isDigit = true := by
  rw [deploymentDirPattern] at h
  split at h
  next c1 c2 c3 c4 c5 c6 rest heq =>
    split_ifs at h with hcond
    · have hinj := Option.some.inj h
      have hid : id = ⟨[c1, c2, c3, c4, c5, c6]⟩ := (congrArg Prod.fst hinj).symm
      have hnm : nm = ⟨rest⟩ := (congrArg Prod.snd hinj).symm
      subst hid
      subst hnm
      simp only [Bool.and_eq_true] at hcond
      refine ⟨by rw [heq]; rfl, rfl, ?_⟩
      intro c hc
      simp only [List.mem_cons, List.not_mem_nil, or_false] at hc
      rcases hc with rfl | rfl | rfl | rfl | rfl | rfl
      · exact hcond.1.1.1.1.1.1
      · exact hcond.1.1.1.1.1.2
      · exact hcond.1.1.1.1.2
      · exact hcond.1.1.1.2
      · exact hcond.1.1.2
      · exact hcond.1.2
  next hne => exact Option.noConfusion h

/-- Inversion of `dirIDOf`. -/
theorem dirIDOf_inv (e : DirEntry) (id : String) (h : dirIDOf e = some id) :
    e.isDir = true ∧ ∃ nm, deploymentDirPattern e.name = some (id, nm) := by
  rw [dirIDOf] at h
  by_cases hd : e.isDir
  · rw [if_pos hd] at h
    cases hm : deploymentDirPattern e.name with
    | none => rw [hm] at h; exact Option.noConfusion h
    | some pr =>
        rw [hm] at h
        obtain ⟨prid, prnm⟩ := pr
        have : prid = id := by simpa using h
        subst this
        exact ⟨by simpa using hd, prnm, rfl⟩
  · rw [if_neg hd] at h
    exact Option.noConfusion h

/-! ## Maximum of a list of naturals -/

/-- The fold of `max` peels its accumulator. -/
theorem foldl_max_acc : ∀ (l : List Nat) (a b : Nat),
    l.foldl max (max a b) = max a (l.foldl max b) := by
  intro l
  induction l with
  | nil => intro a b; simp
  | cons c l ih =>
      intro a b
      rw [List.foldl_cons, max_assoc, ih, List.foldl_cons]

/-- Unfolding `maxNat` on a cons. -/
theorem maxNat_cons (v : Nat) (l : List Nat) : maxNat (v :: l) = max v (maxNat l) := by
  rw [maxNat, List.foldl_cons]
  have h0 : max 0 v = max v 0 := max_comm 0 v
  rw [h0, foldl_max_acc]
  rfl

/-- Every member is bounded by `maxNat`. -/
theorem le_maxNat : ∀ (l : List Nat), ∀ v ∈ l, v ≤ maxNat l := by
  intro l
  induction l with
  | nil => intro v hv; simp at hv
  | cons c l ih =>
      intro v hv
      rw [maxNat_cons]
      rcases List.mem_cons.mp hv with rfl | hv
      · exact le_max_left _ _
      · exact le_trans (ih v hv) (le_max_right _ _)

/-! ## Decimal printing round-trip -/

/-- Appending one digit multiplies the value by ten. -/
theorem digitsToNat_append_one (xs : List Char) (c : Char) :
    digitsToNat (xs ++ [c]) = digitsToNat xs * 10 + (c.toNat - 48) := by
  rw [digitsToNat, digitsToNat, List.foldl_append]
  rfl

/-- Value of a digit character. -/
theorem digitChar_toNat (d : Nat) (h : d < 10) : (digitChar d).toNat = 48 + d := by
  rw [digitChar]
  interval_cases d <;> decide

/-- The decimal printer is inverted by the digit parser. -/
theorem natDecimalAux_val : ∀ (fuel n : Nat), n < fuel →
    digitsToNat (natDecimalAux fuel n) = n := by
  intro fuel
  induction fuel with
  | zero => intro n h; exact absurd h (Nat.not_lt_zero n)
  | succ fuel ih =>
      intro n h
      rw [natDecimalAux]
      by_cases h10 : n < 10
      · rw [if_pos h10]
        rw [digitsToNat, List.foldl_cons]
        simp [digitChar_toNat n h10]
      · rw [if_neg h10]
        have hdiv : n / 10 < fuel := by
          have h1 : n / 10 < n := Nat.div_lt_self (by omega) (by omega)
          omega
        rw [digitsToNat_append_one, ih (n / 10) hdiv,
          digitChar_toNat (n % 10) (Nat.mod_lt n (by omega))]
        omega

/-- Round trip for `natDecimal`. -/
theorem natDecimal_val (n : Nat) : digitsToNat (natDecimal n) = n :=
  natDecimalAux_val (n + 1) n (Nat.lt_succ_self n)

/-- Leading zeros do not change the parsed value. -/
theorem digitsToNat_replicate_zero : ∀ (k : Nat) (cs : List Char),
    digitsToNat (List.replicate k '0' ++ cs) = digitsToNat cs := by
  intro k
  induction k with
  | zero => intro cs; simp
  | succ k ih =>
      intro cs
      rw [List.replicate_succ, List.cons_append, digitsToNat, List.foldl_cons]
      have h0 : (0 * 10 + ('0'.toNat - 48)) = 0 := by decide
      rw [h0]
      exact ih cs

/-- The padded allocation string always parses back to its number. -/
theorem pad6_val (n : Nat) : digitsToNat (pad6 n).data = n := by
  rw [pad6]
  show digitsToNat (List.replicate (6 - (natDecimal n).length) '0' ++ natDecimal n) = n
  rw [digitsToNat_replicate_zero, natDecimal_val]

/-- Length bound of the decimal printer. -/
theorem natDecimalAux_len : ∀ (fuel n k : Nat), n < 10 ^ (k + 1) →
    (natDecimalAux fuel n).length ≤ k + 1 := by
  intro fuel
  induction fuel with
  | zero => intro n k _; simp [natDecimalAux]
  | succ fuel ih =>
      intro n k h
      rw [natDecimalAux]
      by_cases h10 : n < 10
      · rw [if_pos h10]; simp
      · rw [if_neg h10]
        cases k with
        | zero => simp at h; omega
        | succ k' =>
            rw [List.length_append]
            have hdiv : n / 10 < 10 ^ (k' + 1) := by
              rw [Nat.div_lt_iff_lt_mul (by omega)]
              calc n < 10 ^ (k' + 1 + 1) := h
                _ = 10 ^ (k' + 1) * 10 := by rw [pow_succ]
            have := ih (n / 10) k' hdiv
            simp only [List.length_singleton]
            omega

/-- Allocation strings stay six characters wide below one million. -/
theorem pad6_len (n : Nat) (h : n ≤ 999999) : (pad6 n).data.length = 6 := by
  rw [pad6]
  show (List.replicate (6 - (natDecimal n).length) '0' ++ natDecimal n).length = 6
  have hlen : (natDecimal n).length ≤ 6 := by
    have : n < 10 ^ 6 := by omega
    exact natDecimalAux_len (n + 1) n 5 this
  rw [List.length_append, List.length_replicate]
  omega

/-! ## The backward scan finds the maximal ID -/

/-- Unfolding `matchingIDVals` on a cons. -/
theorem matchingIDVals_cons (e : DirEntry) (rest : List DirEntry) :
    matchingIDVals (e :: rest) =
      match dirIDOf e with
      | some id => digitsToNat id.data :: matchingIDVals rest
      | none => matchingIDVals rest := by
  rw [matchingIDVals, List.filterMap_cons]
  cases hdio : dirIDOf e <;> simp [matchingIDVals]

/-- Membership in the matched ID values. -/
theorem mem_matchingIDVals (entries : List DirEntry) (v : Nat) :
    v ∈ matchingIDVals entries ↔
      ∃ e ∈ entries, ∃ id, dirIDOf e = some id ∧ v = digitsToNat id.data := by
  rw [matchingIDVals]
  rw [List.mem_filterMap]
  constructor
  · rintro ⟨e, he, hf⟩
    obtain ⟨id, hid, hval⟩ := Option.map_eq_some'.mp hf
    exact ⟨e, he, id, hid, hval.symm⟩
  · rintro ⟨e, he, id, hid, rfl⟩
    exact ⟨e, he, by rw [hid]; rfl⟩

/-- Numeric comparison of two matched directory names under byte
order. -/
theorem matching_names_le (e y : DirEntry) (id sid : String)
    (hde : dirIDOf e = some id) (hdy : dirIDOf y = some sid)
    (hle : bytesLE e.name.data y.name.data = true) :
    digitsToNat id.data ≤ digitsToNat sid.data := by
  obtain ⟨_, nme, hpe⟩ := dirIDOf_inv e id hde
  obtain ⟨_, nmy, hpy⟩ := dirIDOf_inv y sid hdy
  obtain ⟨hse, hlene, hdige⟩ := dirPattern_inv e.name id nme hpe
  obtain ⟨hsy, hleny, hdigy⟩ := dirPattern_inv y.name sid nmy hpy
  rw [hse, hsy] at hle
  exact bytesLE_digits_le id.data sid.data _ _ 0 (by rw [hlene, hleny]) hdige hdigy hle

/-- On a sorted listing, the backward scan of `getNextDeploymentID`
finds a matching directory exactly when one exists, and its ID parses to
the maximum of all matching IDs. -/
theorem findLast_max (entries : List DirEntry) (hs : nameSorted entries) :
    (findLastDirID entries = none → matchingIDVals entries = []) ∧
    (∀ s, findLastDirID entries = some s →
      matchingIDVals entries ≠ [] ∧
      digitsToNat s.data = maxNat (matchingIDVals entries)) := by
  induction entries with
  | nil =>
      refine ⟨fun _ => rfl, fun s hcontra => ?_⟩
      rw [findLastDirID] at hcontra
      exact Option.noConfusion hcontra
  | cons e rest ih =>
      obtain ⟨hhead, hrest⟩ := List.pairwise_cons.mp hs
      obtain ⟨ih1, ih2⟩ := ih hrest
      have hhd : findLastDirID (e :: rest) =
          match findLastDirID rest with
          | some id => some id
          | none => dirIDOf e := by
        rw [findLastDirID, dirIDOf]
        cases findLastDirID rest with
        | some x => rfl
        | none =>
            by_cases hd : e.isDir
            · rw [if_pos (by simpa using hd), if_pos hd]
              cases deploymentDirPattern e.name with
              | none => rfl
              | some pr => rfl
            · rw [if_neg (by simpa using hd), if_neg hd]
      cases hfl : findLastDirID rest with
      | some s0 =>
          rw [hfl] at hhd
          obtain ⟨hne0, hval0⟩ := ih2 s0 hfl
          constructor
          · intro hcontra; rw [hhd] at hcontra; exact Option.noConfusion hcontra
          · intro s hsome
            rw [hhd] at hsome
            have hs0 : s = s0 := (Option.some.inj hsome).symm
            subst hs0
            rw [matchingIDVals_cons]
            cases hdio : dirIDOf e with
            | none => exact ⟨hne0, hval0⟩
            | some id =>
                simp only
                refine ⟨by simp, ?_⟩
                obtain ⟨v, hv⟩ := List.exists_mem_of_ne_nil _ hne0
                obtain ⟨y, hy, sid, hdy, hveq⟩ := (mem_matchingIDVals rest v).mp hv
                have hle := matching_names_le e y id sid hdio hdy (hhead y hy)
                have hvmax : v ≤ maxNat (matchingIDVals rest) :=
                  le_maxNat (matchingIDVals rest) v hv
                rw [maxNat_cons, hval0]
                rw [max_eq_right (by omega)]
      | none =>
          rw [hfl] at hhd
          have hhd' : findLastDirID (e :: rest) = dirIDOf e := hhd
          have hvals : matchingIDVals rest = [] := ih1 hfl
          constructor
          · intro hnone
            rw [hhd'] at hnone
            rw [matchingIDVals_cons]
            simp only [hnone, hvals]
          · intro s hsome
            rw [hhd'] at hsome
            rw [matchingIDVals_cons]
            simp only [hsome, hvals]
            refine ⟨by simp, ?_⟩
            rw [maxNat_cons]
            have h0 : maxNat ([] : List Nat) = 0 := rfl
            rw [h0]
            omega

/-- A sorted root listing with two deployment directories (IDs 1 and 7)
and a stray file. -/
def entsC9 : List DirEntry :=
  [⟨"000001_alpha", true, true⟩, ⟨"000007_beta", true, true⟩, ⟨"notes.txt", false, false⟩]

/-- C9: on a sorted root listing, `getNextDeploymentID` (and hence
`CreateDeployment`) allocates `000001` when no deployment directories
exist, and otherwise `max(existing IDs) + 1` zero-padded to a fixed
six-digit width; every existing ID is numerically below the new one, and
creating three deployments in an empty root yields IDs `000001`,
`000002`, `000003` in order. -/
theorem c9_next_id (entries : List DirEntry) (hs : nameSorted entries) :
    (matchingIDVals entries = [] → getNextDeploymentID entries = "000001") ∧
    (matchingIDVals entries ≠ [] →
      getNextDeploymentID entries = pad6 (maxNat (matchingIDVals entries) + 1) ∧
      digitsToNat (getNextDeploymentID entries).data =
        maxNat (matchingIDVals entries) + 1 ∧
      (∀ v ∈ matchingIDVals entries,
        v < digitsToNat (getNextDeploymentID entries).data) ∧
      (maxNat (matchingIDVals entries) + 1 ≤ 999999 →
        (getNextDeploymentID entries).data.length = 6)) ∧
    (CreateDeployment [] "m" "a").ID = "000001" ∧
    (CreateDeployment (rootAfterCreate [] "m" "a") "m" "b").ID = "000002" ∧
    (CreateDeployment (rootAfterCreate (rootAfterCreate [] "m" "a") "m" "b") "m" "c").ID
      = "000003" := by
  obtain ⟨h1, h2⟩ := findLast_max entries hs
  refine ⟨?_, ?_, by decide, by decide, by decide⟩
  · intro hempty
    cases hfl : findLastDirID entries with
    | none => simp only [getNextDeploymentID, hfl]
    | some s => exact absurd hempty (h2 s hfl).1
  · intro hne
    cases hfl : findLastDirID entries with
    | none => exact absurd (h1 hfl) hne
    | some s =>
        obtain ⟨_, hval⟩ := h2 s hfl
        have hg : getNextDeploymentID entries =
            pad6 (maxNat (matchingIDVals entries) + 1) := by
          simp only [getNextDeploymentID, hfl]
          rw [hval]
        refine ⟨hg, ?_, ?_, ?_⟩
        · rw [hg, pad6_val]
        · intro v hv
          rw [hg, pad6_val]
          have := le_maxNat (matchingIDVals entries) v hv
          omega
        · intro hb
          rw [hg]
          exact pad6_len _ hb

/-- Witness for C9 on a concrete sorted listing: IDs 1 and 7 exist, so
the next allocated ID is `000008`. -/
theorem c9_next_id_witness :
    getNextDeploymentID entsC9 = pad6 (maxNat (matchingIDVals entsC9) + 1) ∧
    getNextDeploymentID entsC9 = "000008" := by
  refine ⟨((c9_next_id entsC9 (by unfold nameSorted; decide)).2.1 (by decide)).1, by decide⟩

end Zdd
